import Mathlib

/-!
Shallow embedding of the stepflow engine (step-flow/stepflow) and proofs
checking the natural-language specification against the code.

The embedding mirrors the Rust sources:
  * `stepflow-base/src/object_store.rs` and `id.rs` — identities and registry,
  * `stepflow-data` — values, vars, validated values, state data,
  * `stepflow-step/src/step.rs` — steps and gating,
  * `stepflow-session/src/dfs.rs` — the resumable depth-first cursor,
  * `stepflow-session/src/session.rs` — the Session advance state machine.

Conventions used throughout:
  * Rust `HashMap` becomes an association list whose `insertKV` replaces an
    existing binding in place (keys stay distinct, order immaterial to lookups).
  * Machine integers (`u32` in `AtomicU32`/ids) are `Nat` with explicit
    `% 2 ^ 32` where the source can overflow.
  * Fallible code returns `Except`; stateful methods take and return the state.
  * Loops (`DepthFirstSearch::next`, `Session::advance`) are fueled: the outer
    `Option` is `none` exactly when the fuel runs out before the source's loop
    hits one of its `break`/`return` points.
  * `Vec` stacks pushed/popped at the back are Lean lists with the top at the
    head.
-/

namespace StepFlow

/-- `IdError` from `stepflow-base/src/errors.rs`. -/
inductive IdError (TID : Type) where
  | cannotParse (s : String)
  | idNotReserved (id : TID)
  | idAlreadyExists (id : TID)
  | idMissing (id : TID)
  | idUnexpected (id : TID)
  | idHasNoName (id : TID)
  | nameAlreadyExists (s : String)
  | noSuchName (s : String)
  deriving Repr, DecidableEq

/-- `VarId` generated by `generate_id_type!` (`stepflow-base/src/id.rs`): a
`u32` newtype, here a `Nat` kept below `2 ^ 32` by the operations. -/
structure VarId where
  val : Nat
  deriving Repr, DecidableEq

/-- `StepId` generated by `generate_id_type!` in `stepflow-step/src/step.rs`. -/
structure StepId where
  val : Nat
  deriving Repr, DecidableEq

/-- `ActionId` generated by `generate_id_type!` in `stepflow-action/src/action.rs`. -/
structure ActionId where
  val : Nat
  deriving Repr, DecidableEq

/-- `SessionId` generated by `generate_id_type!` in `stepflow-session/src/session.rs`. -/
structure SessionId where
  val : Nat
  deriving Repr, DecidableEq

/-- Key-value lookup in an association list (the embedding of `HashMap::get`). -/
def lookupKV {K V : Type} [DecidableEq K] : List (K × V) → K → Option V
  | [], _ => none
  | (k, v) :: rest, key => if k = key then some v else lookupKV rest key

/-- The embedding of `HashMap::insert`: replace the binding for `key` if it is
present, otherwise append it. -/
def insertKV {K V : Type} [DecidableEq K] : List (K × V) → K → V → List (K × V)
  | [], key, val => [(key, val)]
  | (k, v) :: rest, key, val =>
      if k = key then (key, val) :: rest else (k, v) :: insertKV rest key val

/-- The `ObjectStoreContent` trait (`stepflow-base/src/object_store.rs`):
`new_id` builds an id from the next raw counter value and `id` reads an
object's id. -/
class ObjectStoreContent (T : Type) (TID : outParam Type) where
  new_id : Nat → TID
  id : T → TID

/-- `ObjectStore` (`stepflow-base/src/object_store.rs`): id-keyed objects, a
name table, and the `AtomicU32` `next_id` counter. -/
structure ObjectStore (T TID : Type) where
  id_to_object : List (TID × T)
  name_to_id : List (String × TID)
  next_id : Nat
  deriving Repr

namespace ObjectStore

variable {T TID : Type} [DecidableEq TID] [ObjectStoreContent T TID]

/-- `ObjectStore::with_capacity` (capacity is irrelevant to the model). -/
def with_capacity (_capacity : Nat) : ObjectStore T TID :=
  { id_to_object := [], name_to_id := [], next_id := 0 }

/-- `ObjectStore::new`. -/
def new : ObjectStore T TID := with_capacity 0

/-- `ObjectStore::reserve_id`: `fetch_add(1)` on the `AtomicU32` counter
returns the old value; the stored counter wraps at `2 ^ 32`. -/
def reserve_id (s : ObjectStore T TID) : TID × ObjectStore T TID :=
  (ObjectStoreContent.new_id (T := T) s.next_id,
    { s with next_id := (s.next_id + 1) % 2 ^ 32 })

/-- `ObjectStore::register`. -/
def register (s : ObjectStore T TID) (object : T) :
    Except (IdError TID) (TID × ObjectStore T TID) :=
  let oid := ObjectStoreContent.id object
  if (lookupKV s.id_to_object oid).isSome then
    .error (.idAlreadyExists oid)
  else
    .ok (oid, { s with id_to_object := insertKV s.id_to_object oid object })

/-- `ObjectStore::register_named`. -/
def register_named (s : ObjectStore T TID) (name : String) (object : T) :
    Except (IdError TID) (TID × ObjectStore T TID) :=
  if (lookupKV s.name_to_id name).isSome then
    .error (.nameAlreadyExists name)
  else
    (s.register object).map fun (oid, s') =>
      (oid, { s' with name_to_id := insertKV s'.name_to_id name oid })

/-- `ObjectStore::insert_new`. -/
def insert_new (s : ObjectStore T TID) (cb : TID → Except (IdError TID) T) :
    Except (IdError TID) (TID × ObjectStore T TID) := do
  let (id, s') := s.reserve_id
  let object ← cb id
  if ObjectStoreContent.id object ≠ id then
    .error (.idNotReserved (ObjectStoreContent.id object : TID))
  else
    s'.register object

/-- `ObjectStore::insert_new_named`. -/
def insert_new_named (s : ObjectStore T TID) (name : String)
    (cb : TID → Except (IdError TID) T) :
    Except (IdError TID) (TID × ObjectStore T TID) := do
  let (id, s') := s.reserve_id
  let object ← cb id
  if ObjectStoreContent.id object ≠ id then
    .error (.idNotReserved (ObjectStoreContent.id object : TID))
  else
    s'.register_named name object

/-- `ObjectStore::get`. -/
def get (s : ObjectStore T TID) (id : TID) : Option T :=
  lookupKV s.id_to_object id

/-- `ObjectStore::name_from_id`: scan the name table for the id. -/
def name_from_id (s : ObjectStore T TID) (id : TID) : Option String :=
  (s.name_to_id.find? fun (_, iter_id) => iter_id = id).map Prod.fst

end ObjectStore

/-- `InvalidValue` from `stepflow-data/src/error.rs`. -/
inductive InvalidValue where
  | WrongType
  | BadFormat
  | Empty
  | WrongValue
  deriving Repr, DecidableEq

/-- `is_valid_email_local_part_char` (`stepflow-data/src/value/email_value.rs`).
The source uses Rust's Unicode-aware `char::is_alphanumeric`; the embedding
uses `Char.isAlphanum`, which agrees with it exactly on ASCII characters but
not beyond (Rust accepts non-ASCII alphanumerics such as U+3042 that this
classifier rejects). The e-mail theorems therefore quantify only over
`AsciiOnly` strings, where the embedding is exact. Brace and backtick
characters are written by code point. -/
def is_valid_email_local_part_char (c : Char) : Bool :=
  if c.isAlphanum then
    true
  else
    c = '!' || c = '#' || c = '$' || c = '%' || c = '&' || c = '*' || c = '+' ||
    c = '-' || c = '/' || c = '=' || c = '?' || c = '^' || c = '_' ||
    c = Char.ofNat 96 || c = Char.ofNat 123 || c = '|' || c = Char.ofNat 125 ||
    c = '~'

/-- Rust's `char::is_whitespace` restricted to ASCII (space, `\t`, `\r`,
`\n`, vertical tab, form feed). The Unicode white-space characters beyond
ASCII (such as U+00A0), on which Rust's check also returns `true`, are not
modelled, so the e-mail theorems quantify only over `AsciiOnly` strings,
where the two checks agree exactly. -/
def rust_char_is_whitespace (c : Char) : Bool :=
  c.isWhitespace || c = Char.ofNat 11 || c = Char.ofNat 12

/-- The local state enum of `extract_login`. -/
inductive ExtractState where
  | LoginAnyLocalPartChar
  | LoginAnyLocalPartCharAndDot
  | Domain
  deriving Repr, DecidableEq

/-- The `for c in input.chars()` loop of `extract_login`, over the remaining
characters, carrying `end_range` (characters consumed) and the current
`login` slice. The source increments `end_range` once per char but slices
the original input with the byte-indexed `input.get(0..end_range - 1)?`,
whose `None`-at-non-char-boundary path (and byte-offset truncation) has no
counterpart in the character-based `List.take` used here. On `AsciiOnly`
strings every character is one byte and every index a char boundary, so the
two coincide exactly; the e-mail theorems quantify only over that domain. -/
def extractLoginLoop (input : List Char) :
    List Char → Nat → ExtractState → List Char → Option (List Char)
  | [], _, _, login =>
      if login.isEmpty then none else some login
  | c :: rest, end_range, state, login =>
      if rust_char_is_whitespace c then none
      else
        let end_range := end_range + 1
        match state with
        | .LoginAnyLocalPartChar | .LoginAnyLocalPartCharAndDot =>
            if is_valid_email_local_part_char c then
              extractLoginLoop input rest end_range .LoginAnyLocalPartCharAndDot login
            else if state = .LoginAnyLocalPartCharAndDot ∧ c = '.' then
              extractLoginLoop input rest end_range .LoginAnyLocalPartChar login
            else if c = '@' then
              let login := input.take (end_range - 1)
              match login.getLast? with
              | none => none
              | some last =>
                  if last = '.' then none
                  else extractLoginLoop input rest end_range .Domain login
            else
              none
        | .Domain =>
            if c = '@' then none
            else extractLoginLoop input rest end_range .Domain login

/-- `extract_login` (`stepflow-data/src/value/email_value.rs`). -/
def extract_login (input : List Char) : Option (List Char) :=
  extractLoginLoop input input 0 .LoginAnyLocalPartChar []

/-- `EmailValue` (`stepflow-data/src/value/email_value.rs`). -/
structure EmailValue where
  val : String
  deriving Repr, DecidableEq

namespace EmailValue

/-- `EmailValue::validate`. -/
def validate (val : String) : Except InvalidValue Unit :=
  if val.isEmpty then .error .Empty
  else if (extract_login val.toList).isNone then .error .BadFormat
  else .ok ()

/-- `EmailValue::try_new`. -/
def try_new (val : String) : Except InvalidValue EmailValue :=
  (validate val).map fun _ => { val }

end EmailValue

/-- `StringValue::try_new` (`stepflow-data/src/value/string_value.rs`)
requires a non-empty string. -/
structure StringValue where
  val : String
  deriving Repr, DecidableEq

/-- `UriValue` (`stepflow-data/src/value/uri_value.rs`) holds a parsed URI;
the parse itself is external (the `uri` crate). -/
structure UriValue where
  val : String
  deriving Repr, DecidableEq

/-- The closed set of value kinds (`stepflow-data/src/value/*.rs`): each
`Box<dyn Value>` is one of these concrete types, recoverable by downcast. -/
inductive Value where
  | stringV (v : StringValue)
  | emailV (v : EmailValue)
  | trueV
  | uriV (v : UriValue)
  | boolV (b : Bool)
  deriving Repr, DecidableEq

/-- The runtime kind tag used by `Value::is::<T>()` downcast checks. -/
inductive ValueKind where
  | stringK
  | emailK
  | trueK
  | uriK
  | boolK
  deriving Repr, DecidableEq

/-- The dynamic type of a boxed value. -/
def Value.kind : Value → ValueKind
  | .stringV _ => .stringK
  | .emailV _ => .emailK
  | .trueV => .trueK
  | .uriV _ => .uriK
  | .boolV _ => .boolK

/-- A `Box<dyn Var + Send + Sync>`: every concrete var generated by
`define_var!` (`stepflow-data/src/var.rs`) is an id plus its kind. -/
structure Var where
  id : VarId
  kind : ValueKind
  deriving Repr, DecidableEq

/-- `Var::validate_val_type` from the `define_var!` macro: ok iff the value
downcasts to the var's value type. -/
def Var.validate_val_type (var : Var) (val : Value) : Except InvalidValue Unit :=
  if val.kind = var.kind then .ok () else .error .WrongType

instance : ObjectStoreContent Var VarId where
  new_id v := ⟨v⟩
  id v := v.id

/-- `ValidVal` (`stepflow-data/src/value_valid.rs`). -/
structure ValidVal where
  val : Value
  validated_by : VarId
  deriving Repr, DecidableEq

/-- `ValidVal::try_new`: the sole constructor, gating on
`validate_val_type`. -/
def ValidVal.try_new (val : Value) (validate_with : Var) :
    Except InvalidValue ValidVal :=
  match validate_with.validate_val_type val with
  | .ok _ => .ok { val := val, validated_by := validate_with.id }
  | .error e => .error e

/-- `StateData` (`stepflow-data/src/statedata.rs`). -/
structure StateData where
  data : List (VarId × ValidVal)
  deriving Repr, DecidableEq

namespace StateData

/-- `StateData::new`. -/
def new : StateData := { data := [] }

/-- `StateData::insert`: validate, then store under the var's id. The pair
mirrors the Rust `&mut self` + `Result<(), InvalidValue>`: on error the state
comes back untouched. -/
def insert (sd : StateData) (var : Var) (state_val : Value) :
    StateData × Except InvalidValue Unit :=
  match ValidVal.try_new state_val var with
  | .ok valid => ({ data := insertKV sd.data var.id valid }, .ok ())
  | .error e => (sd, .error e)

/-- `StateData::get`. -/
def get (sd : StateData) (var_id : VarId) : Option ValidVal :=
  lookupKV sd.data var_id

/-- `StateData::contains`. -/
def contains (sd : StateData) (var_id : VarId) : Bool :=
  (lookupKV sd.data var_id).isSome

/-- `StateData::contains_only`: no stored id may fall outside the given set
(the `HashSet<&VarId>` is a list here). -/
def contains_only (sd : StateData) (allowed : List VarId) : Bool :=
  (sd.data.find? fun (var_id, _) => ¬ allowed.contains var_id).isNone

/-- `StateData::merge_from`: right-biased overwrite, no re-validation. -/
def merge_from (sd : StateData) (src : StateData) : StateData :=
  { data := src.data.foldl (fun acc (kv : VarId × ValidVal) => insertKV acc kv.1 kv.2) sd.data }

end StateData

/-- `Step` (`stepflow-step/src/step.rs`). -/
structure Step where
  id : StepId
  input_vars : Option (List VarId)
  output_vars : List VarId
  substep_step_ids : Option (List StepId)
  deriving Repr, DecidableEq

namespace Step

/-- `Step::new`. -/
def new (id : StepId) (input_vars : Option (List VarId)) (output_vars : List VarId) : Step :=
  { id, input_vars, output_vars, substep_step_ids := none }

/-- The `ObjectStoreContent for Step` impl writes `fn new_id(id_val: u16)`
although the trait (and `StepId::new`, generated as a `u32` newtype by
`generate_id_type!`) requires `u32`: the raw counter value is forced through
16 bits, modelled as reduction mod `2 ^ 16`. -/
def new_id (id_val : Nat) : StepId :=
  ⟨id_val % 2 ^ 16⟩

/-- `Step::push_substep`. -/
def push_substep (s : Step) (substep_step_id : StepId) : Step :=
  match s.substep_step_ids with
  | none => { s with substep_step_ids := some [substep_step_id] }
  | some ids => { s with substep_step_ids := some (ids ++ [substep_step_id]) }

/-- The scan inside `Step::next_substep`: skip up to and including the first
occurrence of `prev`, then yield the next entry. -/
def nextAfter (prev : StepId) : List StepId → Option StepId
  | [] => none
  | x :: xs => if x = prev then xs.head? else nextAfter prev xs

/-- `Step::next_substep`. -/
def next_substep (s : Step) (prev_substep_id : StepId) : Option StepId :=
  match s.substep_step_ids with
  | none => none
  | some ids => nextAfter prev_substep_id ids

/-- `Step::first_substep`. -/
def first_substep (s : Step) : Option StepId :=
  s.substep_step_ids.bind List.head?

/-- `Step::can_enter`: error on the first missing required input. -/
def can_enter (s : Step) (inputs : StateData) : Except (IdError VarId) Unit :=
  match s.input_vars with
  | none => .ok ()
  | some input_vars =>
      match input_vars.find? fun input_var_id => ¬ inputs.contains input_var_id with
      | some missing => .error (.idMissing missing)
      | none => .ok ()

/-- `Step::can_exit`: `can_enter` plus the first missing required output. -/
def can_exit (s : Step) (state_data : StateData) : Except (IdError VarId) Unit := do
  _ ← s.can_enter state_data
  match s.output_vars.find? fun output_var_id => ¬ state_data.contains output_var_id with
  | some missing => .error (.idMissing missing)
  | none => .ok ()

end Step

instance : ObjectStoreContent Step StepId where
  new_id := Step.new_id
  id s := s.id

/-- `ActionError` (`stepflow-action/src/error.rs`). -/
inductive ActionError where
  | VarId (e : IdError VarId)
  | StepId (e : IdError StepId)
  | Other
  deriving Repr, DecidableEq

/-- `ActionResult` (`stepflow-action/src/action.rs`). -/
inductive ActionResult where
  | startWith (val : Value)
  | finished (data : StateData)
  | cannotFulfill
  deriving Repr, DecidableEq

/-- A `Box<dyn Action + Sync + Send>`: an id, the action's mutable internal
state (a `Nat` covers the counters concrete actions carry), and `start`,
which sees the step, its display name, and the filtered state/var views and
returns a result plus the updated internal state. -/
structure ActionObj where
  id : ActionId
  st : Nat
  run : Nat → Step → Option String → StateData → List VarId →
    Except ActionError ActionResult × Nat

instance : ObjectStoreContent ActionObj ActionId where
  new_id v := ⟨v⟩
  id a := a.id

/-- The session `Error` enum (`stepflow-session/src/errors.rs`). -/
inductive SError where
  | varId (e : IdError VarId)
  | stepId (e : IdError StepId)
  | actionId (e : IdError ActionId)
  | sessionId (e : IdError SessionId)
  | invalidValue (e : InvalidValue)
  | invalidStateDataError
  | noStateToEval
  | other
  deriving Repr, DecidableEq

/-- `From<ActionError> for Error`. -/
def SError.fromActionError : ActionError → SError
  | .VarId e => .varId e
  | .StepId e => .stepId e
  | .Other => .other

/-- `DFSDirection` (`stepflow-session/src/dfs.rs`). -/
inductive DFSDirection where
  | Down
  | SiblingOrUp
  | Done
  deriving Repr, DecidableEq

/-- `DFSStep` (`stepflow-session/src/dfs.rs`). -/
inductive DFSStep where
  | DownTo (id : StepId)
  | SiblingTo (id : StepId)
  | CannotGoto (e : SError)
  | CannotLeaveForSibling (e : SError)
  | NothingMoreDown
  | NothingMoreInStack
  | PoppedUp
  deriving Repr, DecidableEq

/-- `DepthFirstSearch`: the path stack (top of the `Vec` = head of the list)
and the direction flag. -/
structure DepthFirstSearch where
  stack : List StepId
  next_direction : DFSDirection
  deriving Repr, DecidableEq

namespace DepthFirstSearch

/-- `DepthFirstSearch::new`. -/
def new (root : StepId) : DepthFirstSearch :=
  { stack := [root], next_direction := .Down }

/-- `DepthFirstSearch::current`: the top of the stack. -/
def current (dfs : DepthFirstSearch) : Option StepId :=
  dfs.stack.head?

/-- `DepthFirstSearch::next_sibling_of_current`: needs the current node and
its parent on the stack, then scans the parent's child list. -/
def next_sibling_of_current (stack : List StepId)
    (step_store : ObjectStore Step StepId) : Option StepId :=
  match stack with
  | current_id :: parent_id :: _ =>
      (step_store.get parent_id).bind fun parent_step =>
        parent_step.next_substep current_id
  | _ => none

/-- `DepthFirstSearch::first_child_of`. -/
def first_child_of (step_id : StepId) (step_store : ObjectStore Step StepId) :
    Option StepId :=
  (step_store.get step_id).bind Step.first_substep

/-- `DepthFirstSearch::go_down`: the returned stack reflects the push on
success; on a gate failure the stack is untouched. -/
def go_down (canEnter : StepId → Except SError Unit)
    (step_store : ObjectStore Step StepId) (stack : List StepId) :
    DFSStep × List StepId :=
  match stack with
  | [] => (.NothingMoreInStack, stack)
  | step_id :: _ =>
      match first_child_of step_id step_store with
      | some first_child =>
          match canEnter first_child with
          | .error e => (.CannotGoto e, stack)
          | .ok _ => (.DownTo first_child, first_child :: stack)
      | none => (.NothingMoreDown, stack)

/-- `DepthFirstSearch::go_sibling_or_up`: check `can_exit` on the top first,
then move to the next sibling (pop + push) or pop up. -/
def go_sibling_or_up (canEnter canExit : StepId → Except SError Unit)
    (step_store : ObjectStore Step StepId) (stack : List StepId) :
    DFSStep × List StepId :=
  match stack with
  | [] => (.NothingMoreInStack, stack)
  | top :: rest =>
      match canExit top with
      | .error e => (.CannotLeaveForSibling e, stack)
      | .ok _ =>
          match next_sibling_of_current stack step_store with
          | some next_sibling =>
              match canEnter next_sibling with
              | .error e => (.CannotGoto e, stack)
              | .ok _ => (.SiblingTo next_sibling, next_sibling :: rest)
          | none => (.PoppedUp, rest)

/-- One iteration of the `while err == None` loop in
`DepthFirstSearch::next`: dispatch on the direction, then fold the `DFSStep`
into either a continuation state or a loop exit (the `break`s and the
error assignment, which ends the loop via its condition). -/
inductive LoopExit where
  | next (dir : DFSDirection) (stack : List StepId)
  | brk (dir : DFSDirection) (stack : List StepId) (err : Option SError)

/-- The loop body of `DepthFirstSearch::next`. -/
def nextStep (canEnter canExit : StepId → Except SError Unit)
    (step_store : ObjectStore Step StepId) (dir : DFSDirection)
    (stack : List StepId) : LoopExit :=
  let step_result :=
    match dir with
    | .Down => go_down canEnter step_store stack
    | .SiblingOrUp => go_sibling_or_up canEnter canExit step_store stack
    | .Done => (.NothingMoreInStack, stack)
  match step_result with
  | (.DownTo _, stack') => .next .Down stack'
  | (.SiblingTo _, stack') => .next .Down stack'
  | (.NothingMoreDown, stack') => .brk .SiblingOrUp stack' none
  | (.PoppedUp, stack') => .next .SiblingOrUp stack'
  | (.CannotGoto e, stack') => .brk dir stack' (some e)
  | (.CannotLeaveForSibling e, stack') => .brk dir stack' (some e)
  | (.NothingMoreInStack, stack') => .brk .Done stack' none

/-- The fueled `while` loop of `DepthFirstSearch::next`; `none` = fuel ran
out before the source loop exited. -/
def nextLoop (canEnter canExit : StepId → Except SError Unit)
    (step_store : ObjectStore Step StepId) :
    Nat → DFSDirection → List StepId →
    Option (DFSDirection × List StepId × Option SError)
  | 0, _, _ => none
  | fuel + 1, dir, stack =>
      match nextStep canEnter canExit step_store dir stack with
      | .next dir' stack' => nextLoop canEnter canExit step_store fuel dir' stack'
      | .brk dir' stack' err => some (dir', stack', err)

/-- The epilogue of `DepthFirstSearch::next`: the call's result computed from
the final direction, stack and pending error. -/
def obsOf (dir : DFSDirection) (stack : List StepId) (err : Option SError) :
    Except SError (Option StepId) :=
  match err with
  | some e => .error e
  | none =>
      if dir = .Done then .ok none
      else
        match stack.head? with
        | some top => .ok (some top)
        | none => .error .noStateToEval

/-- `DepthFirstSearch::next`: run the loop, store the final direction and
stack, and compute the call's result exactly as the source epilogue does. -/
def next (fuel : Nat) (dfs : DepthFirstSearch)
    (canEnter canExit : StepId → Except SError Unit)
    (step_store : ObjectStore Step StepId) :
    Option (DepthFirstSearch × Except SError (Option StepId)) :=
  (nextLoop canEnter canExit step_store fuel dfs.next_direction dfs.stack).map
    fun (dir, stack, err) =>
      ({ stack, next_direction := dir }, obsOf dir stack err)

end DepthFirstSearch

/-- `AdvanceBlockedOn` (`stepflow-session/src/session.rs`). -/
inductive AdvanceBlockedOn where
  | actionStartWith (action_id : ActionId) (val : Value)
  | actionCannotFulfill
  | finishedAdvancing
  deriving Repr, DecidableEq

/-- `Session` (`stepflow-session/src/session.rs`). -/
structure Session where
  id : SessionId
  state_data : StateData
  actions : List (StepId × ActionId)
  step_store : ObjectStore Step StepId
  action_store : ObjectStore ActionObj ActionId
  var_store : ObjectStore Var VarId
  step_id_all : StepId
  step_id_root : StepId
  step_id_dfs : DepthFirstSearch

namespace Session

/-- `Session::with_capacity`: registers the `STEP_ID_ACTION_ALL` sentinel and
the `SESSION_ROOT` step (the source unwraps both inserts; on the empty store
they always succeed, so the error branches below are unreachable). -/
def with_capacity (id : SessionId) (_var_capacity _step_capacity _action_capacity : Nat) :
    Session :=
  let step_store : ObjectStore Step StepId := ObjectStore.with_capacity 0
  let fallback : Session :=
    { id, state_data := StateData.new, actions := [], step_store,
      action_store := ObjectStore.with_capacity 0,
      var_store := ObjectStore.with_capacity 0,
      step_id_all := ⟨0⟩, step_id_root := ⟨1⟩,
      step_id_dfs := DepthFirstSearch.new ⟨1⟩ }
  match step_store.insert_new_named "STEP_ID_ACTION_ALL"
      (fun i => .ok (Step.new i none [])) with
  | .error _ => fallback
  | .ok (step_id_all, step_store) =>
      match step_store.insert_new_named "SESSION_ROOT"
          (fun i => .ok (Step.new i none [])) with
      | .error _ => fallback
      | .ok (step_id_root, step_store) =>
          { id, state_data := StateData.new, actions := [], step_store,
            action_store := ObjectStore.with_capacity 0,
            var_store := ObjectStore.with_capacity 0,
            step_id_all, step_id_root,
            step_id_dfs := DepthFirstSearch.new step_id_root }

/-- `Session::new`. -/
def new (id : SessionId) : Session :=
  with_capacity id 0 0 0

/-- `Session::current_step`. -/
def current_step (sess : Session) : Except SError StepId :=
  match sess.step_id_dfs.current with
  | some id => .ok id
  | none => .error .noStateToEval

/-- `Session::push_root_substep` (the source unwraps the root lookup, which
always succeeds; a missing root leaves the session unchanged here). -/
def push_root_substep (sess : Session) (step_id : StepId) : Session :=
  match sess.step_store.get sess.step_id_root with
  | none => sess
  | some root_step =>
      { sess with
        step_store :=
          { sess.step_store with
            id_to_object := insertKV sess.step_store.id_to_object sess.step_id_root
              (root_step.push_substep step_id) } }

/-- `Session::set_action_for_step`. -/
def set_action_for_step (sess : Session) (action_id : ActionId)
    (step_id : Option StepId) : Session × Except SError Unit :=
  let step_id_use := step_id.getD sess.step_id_all
  if (lookupKV sess.actions step_id_use).isSome then
    (sess, .error (.stepId (.idAlreadyExists step_id_use)))
  else
    ({ sess with actions := insertKV sess.actions step_id_use action_id }, .ok ())

/-- The `can_enter` gating closure `Session::try_enter_next_step` hands to the
cursor: look the step up, then check its required inputs against the current
state data. -/
def enterGate (step_store : ObjectStore Step StepId) (state_data : StateData)
    (step_id : StepId) : Except SError Unit :=
  match step_store.get step_id with
  | none => .error (.stepId (.idMissing step_id))
  | some step =>
      match step.can_enter state_data with
      | .ok _ => .ok ()
      | .error e => .error (.varId e)

/-- The `can_exit` gating closure of `Session::try_enter_next_step`. -/
def exitGate (step_store : ObjectStore Step StepId) (state_data : StateData)
    (step_id : StepId) : Except SError Unit :=
  match step_store.get step_id with
  | none => .error (.stepId (.idMissing step_id))
  | some step =>
      match step.can_exit state_data with
      | .ok _ => .ok ()
      | .error e => .error (.varId e)

/-- The supplied-output check-and-merge prologue of
`Session::try_enter_next_step`: either the (possibly merged-into) session, or
the error to return. -/
def try_enter_checked (sess : Session)
    (step_output : Option (StepId × StateData)) : Session ⊕ SError :=
  match step_output with
  | none => .inl sess
  | some (out_id, out_data) =>
      match sess.current_step with
      | .error e => .inr e
      | .ok cur =>
          if cur ≠ out_id then .inr (.stepId (.idUnexpected out_id))
          else .inl { sess with state_data := sess.state_data.merge_from out_data }

/-- The cursor call of `Session::try_enter_next_step`. -/
def try_enter_go (dfsFuel : Nat) (sess : Session) :
    Option (Session × Except SError (Option StepId)) :=
  match sess.step_id_dfs.next dfsFuel
      (enterGate sess.step_store sess.state_data)
      (exitGate sess.step_store sess.state_data) sess.step_store with
  | none => none
  | some (dfs', result) => some ({ sess with step_id_dfs := dfs' }, result)

/-- `Session::try_enter_next_step`: check the supplied output names the
current step, merge it, then advance the cursor under the state-data gates. -/
def try_enter_next_step (dfsFuel : Nat) (sess : Session)
    (step_output : Option (StepId × StateData)) :
    Option (Session × Except SError (Option StepId)) :=
  match try_enter_checked sess step_output with
  | .inr e => some (sess, .error e)
  | .inl sess => try_enter_go dfsFuel sess

/-- `get_step_input_output_vars` inside `Session::call_action`: the step's
declared inputs and outputs (a `HashSet` in the source; a list here, with
membership the only observation). -/
def get_step_input_output_vars (step : Step) : List VarId :=
  step.input_vars.getD [] ++ step.output_vars

/-- The `StateDataFiltered` view `call_action` passes to the action,
restricted to the step's declared input and output identities. -/
def call_action_step_data (sess : Session) (step : Step) : StateData :=
  { data := sess.state_data.data.filter
      fun kv => (get_step_input_output_vars step).contains kv.1 }

/-- `Session::call_action`: resolve the step and action, run the action on
the filtered views, and reject a `Finished` result whose data has any id
outside the step's declared outputs. The returned session carries the
action's internal-state update, which happens before the shape check. -/
def call_action (sess : Session) (action_id : ActionId) (step_id : StepId) :
    Session × Except SError ActionResult :=
  match sess.step_store.get step_id with
  | none => (sess, .error (.stepId (.idMissing step_id)))
  | some step =>
      let step_name := sess.step_store.name_from_id step_id
      let filter_ids := get_step_input_output_vars step
      let step_data : StateData := call_action_step_data sess step
      match sess.action_store.get action_id with
      | none => (sess, .error (.actionId (.idMissing action_id)))
      | some action =>
          let (action_result, st') :=
            action.run action.st step step_name step_data filter_ids
          let sess' :=
            { sess with
              action_store :=
                { sess.action_store with
                  id_to_object := insertKV sess.action_store.id_to_object action_id
                    { action with st := st' } } }
          match action_result with
          | .error e => (sess', .error (SError.fromActionError e))
          | .ok result =>
              match result with
              | .finished state_data =>
                  if ¬ state_data.contains_only step.output_vars then
                    (sess', .error .invalidStateDataError)
                  else (sess', .ok result)
              | _ => (sess', .ok result)

/-- The `States` enum local to `Session::advance`. -/
inductive AdvState where
  | advanceStep
  | getSpecificAction (step_id : StepId) (err : Option SError)
  | getGenericAction (step_id : StepId) (err : Option SError)
  | startSpecific (action_id : ActionId) (step_id : StepId) (err : Option SError)
  | startGeneric (action_id : ActionId) (step_id : StepId) (err : Option SError)
  | done (result : Except SError AdvanceBlockedOn)

deriving instance DecidableEq for Except

/-- One record per action invocation performed by `Session::advance`,
kept purely as a specification-side observation of the run. -/
structure TraceEntry where
  specific : Bool
  action : ActionId
  step : StepId
  result : Except SError ActionResult
  deriving Repr, DecidableEq

/-- The loop of `Session::advance`, fueled (one unit per iteration of the
source's `loop`), instrumented with the list of action invocations. -/
def advanceAux (dfsFuel : Nat) :
    Nat → AdvState → Session → Option (StepId × StateData) → List TraceEntry →
    Option (Except SError AdvanceBlockedOn × Session × List TraceEntry)
  | 0, _, _, _, _ => none
  | fuel + 1, state, sess, step_output, tr =>
      match state with
      | .done result => some (result, sess, tr)
      | .advanceStep =>
          match try_enter_next_step dfsFuel sess step_output with
          | none => none
          | some (sess, advance_result) =>
              match advance_result with
              | .ok (some step_id) =>
                  advanceAux dfsFuel fuel (.getSpecificAction step_id none) sess none tr
              | .ok none =>
                  advanceAux dfsFuel fuel (.done (.ok .finishedAdvancing)) sess none tr
              | .error err =>
                  match sess.current_step with
                  | .error e => some (.error e, sess, tr)
                  | .ok step_id =>
                      advanceAux dfsFuel fuel (.getSpecificAction step_id (some err)) sess none tr
      | .getSpecificAction step_id error =>
          match lookupKV sess.actions step_id with
          | some action_id =>
              advanceAux dfsFuel fuel (.startSpecific action_id step_id error) sess none tr
          | none => advanceAux dfsFuel fuel (.getGenericAction step_id error) sess none tr
      | .getGenericAction step_id error =>
          match lookupKV sess.actions sess.step_id_all with
          | some action_id =>
              advanceAux dfsFuel fuel (.startGeneric action_id step_id error) sess none tr
          | none =>
              match error with
              | none => advanceAux dfsFuel fuel .advanceStep sess none tr
              | some err => some (.error err, sess, tr)
      | .startSpecific action_id step_id error_opt =>
          let sess1 := (call_action sess action_id step_id).1
          let tr1 := tr ++ [⟨true, action_id, step_id, (call_action sess action_id step_id).2⟩]
          match (call_action sess action_id step_id).2 with
          | .error e => some (.error e, sess1, tr1)
          | .ok (.startWith val) =>
              advanceAux dfsFuel fuel
                (.done (.ok (.actionStartWith action_id val))) sess1 none tr1
          | .ok (.finished state_data) =>
              advanceAux dfsFuel fuel .advanceStep
                { sess1 with state_data := sess1.state_data.merge_from state_data } none tr1
          | .ok .cannotFulfill =>
              advanceAux dfsFuel fuel (.getGenericAction step_id error_opt) sess1 none tr1
      | .startGeneric action_id step_id error_opt =>
          let sess1 := (call_action sess action_id step_id).1
          let tr1 := tr ++ [⟨false, action_id, step_id, (call_action sess action_id step_id).2⟩]
          match (call_action sess action_id step_id).2 with
          | .error e => some (.error e, sess1, tr1)
          | .ok (.startWith val) =>
              advanceAux dfsFuel fuel
                (.done (.ok (.actionStartWith action_id val))) sess1 none tr1
          | .ok (.finished state_data) =>
              advanceAux dfsFuel fuel .advanceStep
                { sess1 with state_data := sess1.state_data.merge_from state_data } none tr1
          | .ok .cannotFulfill =>
              advanceAux dfsFuel fuel (.done (.ok .actionCannotFulfill)) sess1 none tr1

/-- `Session::advance`. -/
def advance (fuel : Nat) (sess : Session)
    (step_output : Option (StepId × StateData)) :
    Option (Except SError AdvanceBlockedOn × Session) :=
  (advanceAux fuel fuel .advanceStep sess step_output []).map fun (r, s, _) => (r, s)

end Session

/-! ## Specification-side predicates -/

/-- "Valid local-part character or a dot" — the alphabet of the local part. -/
def localOrDot (c : Char) : Prop :=
  is_valid_email_local_part_char c = true ∨ c = '.'

instance (c : Char) : Decidable (localOrDot c) :=
  decidable_of_iff (is_valid_email_local_part_char c = true ∨ c = '.') Iff.rfl

/-- No two adjacent dots. -/
def no_double_dot : List Char → Bool
  | a :: b :: t => !(a == '.' && b == '.') && no_double_dot (b :: t)
  | _ => true

/-- Spec wording for the e-mail local part: non-empty, characters from the
allowed set with single interior dots, neither starting nor ending with a
dot. -/
def LoginOk (login : List Char) : Prop :=
  login ≠ [] ∧ (∀ c ∈ login, localOrDot c) ∧
  login.head? ≠ some '.' ∧ login.getLast? ≠ some '.' ∧
  no_double_dot login = true

/-- What the code demands of everything after the first `@`: no whitespace
and no further `@`. -/
def DomainOk (domain : List Char) : Prop :=
  ∀ c ∈ domain, rust_char_is_whitespace c = false ∧ c ≠ '@'

/-- The spec's claimed validation predicate, following its words: a non-empty
valid local-part before the `@` and a dotted domain after it. -/
def EmailClaimedSpec (s : String) : Prop :=
  s.toList.contains '@' = true ∧
  LoginOk (s.toList.takeWhile fun c => c ≠ '@') ∧
  '.' ∈ (s.toList.dropWhile fun c => c ≠ '@').tail ∧
  DomainOk (s.toList.dropWhile fun c => c ≠ '@').tail

/-- The validation predicate the code actually implements: like
`EmailClaimedSpec` but with no requirement at all on the domain beyond
`DomainOk` (it need not contain a dot and may even be empty). -/
def EmailAmendedSpec (s : String) : Prop :=
  s.toList.contains '@' = true ∧
  LoginOk (s.toList.takeWhile fun c => c ≠ '@') ∧
  DomainOk (s.toList.dropWhile fun c => c ≠ '@').tail

/-- The domain on which the e-mail embedding is exact: every character is
ASCII. There Rust's Unicode `char::is_alphanumeric` and `char::is_whitespace`
agree with the model's classifiers, and every byte index is a char boundary,
so the byte-indexed slicing of `extract_login` coincides with the model's
character slicing. Outside it the program and the model diverge (Rust
accepts non-ASCII alphanumerics in the local part and rejects non-ASCII
whitespace), so the iff below is claimed only here. -/
def AsciiOnly (s : String) : Prop :=
  ∀ c ∈ s.toList, c.toNat ≤ 127

instance (s : String) : Decidable (AsciiOnly s) :=
  decidable_of_iff (∀ c ∈ s.toList, c.toNat ≤ 127) Iff.rfl

/-- A `ValidVal` that went through the `ValidVal::try_new` gate for the var
it is recorded under. -/
def ConstructedThroughGate (var_id : VarId) (vv : ValidVal) : Prop :=
  ∃ var : Var, var.id = var_id ∧ ValidVal.try_new vv.val var = .ok vv

/-- Every value stored in the `StateData` went through the validation gate
of a var whose identity is the key it is stored under. -/
def StateData.Validated (sd : StateData) : Prop :=
  ∀ kv ∈ sd.data, ConstructedThroughGate kv.1 kv.2

/-- The specific-before-generic contract on an `advance` invocation trace:
every generic-action invocation for a step is either for a step with no
specific action registered, or immediately follows a specific-action
invocation for that step that returned `CannotFulfill`. -/
def SpecificFirst (actions : List (StepId × ActionId)) (tr : List Session.TraceEntry) : Prop :=
  ∀ i e, tr.get? i = some e → e.specific = false →
    lookupKV actions e.step = none ∨
    ∃ j e', i = j + 1 ∧ tr.get? j = some e' ∧ e'.specific = true ∧
      e'.step = e.step ∧ e'.result = .ok .cannotFulfill

/-! ## Concrete instances used by counterexamples and witnesses -/

/-- A concrete string var with identity 0. -/
def strVar0 : Var := { id := ⟨0⟩, kind := .stringK }

/-- A concrete string var with identity 1. -/
def strVar1 : Var := { id := ⟨1⟩, kind := .stringK }

/-- State data holding only var 0 (inserted through the gate). -/
def dataV0 : StateData := (StateData.new.insert strVar0 (.stringV ⟨"x"⟩)).1

/-- An action that first returns `Finished(dataV0)` and afterwards blocks
with `StartWith(true)`. -/
def finishThenBlockAction : ActionObj :=
  { id := ⟨0⟩, st := 0,
    run := fun st _ _ _ _ =>
      if st = 0 then (.ok (.finished dataV0), 1)
      else (.ok (.startWith (.boolV true)), st) }

/-- An action that always blocks with `StartWith(true)`. -/
def blockAction (i : ActionId) : ActionObj :=
  { id := i, st := 0, run := fun st _ _ _ _ => (.ok (.startWith (.boolV true)), st) }

/-- An action that always answers `CannotFulfill`. -/
def cannotAction (i : ActionId) : ActionObj :=
  { id := i, st := 0, run := fun st _ _ _ _ => (.ok .cannotFulfill, st) }

/-- A step-store entry: a step with the given inputs, outputs and substeps. -/
def mkStepEntry (i : Nat) (ins : Option (List Nat)) (outs : List Nat)
    (subs : List Nat) : StepId × Step :=
  (⟨i⟩, { id := ⟨i⟩, input_vars := ins.map (List.map fun v => (⟨v⟩ : VarId)),
          output_vars := outs.map fun v => (⟨v⟩ : VarId),
          substep_step_ids :=
            if subs.isEmpty then none
            else some (subs.map fun sid => (⟨sid⟩ : StepId)) })

/-- C1 session: one substep (10) declaring outputs {0, 1}, a generic action
registered that first finishes with data for var 0 only — a proper subset of
the declared outputs — then blocks. -/
def sessC1 : Session :=
  let s := Session.new ⟨0⟩
  let s :=
    { s with
      step_store :=
        { s.step_store with
          id_to_object := s.step_store.id_to_object ++ [mkStepEntry 10 none [0, 1] []] },
      action_store :=
        { id_to_object := [(⟨0⟩, finishThenBlockAction)], name_to_id := [], next_id := 1 },
      var_store :=
        { id_to_object := [(⟨0⟩, strVar0), (⟨1⟩, strVar1)], name_to_id := [], next_id := 2 } }
  let s := s.push_root_substep ⟨10⟩
  (s.set_action_for_step ⟨0⟩ none).1

/-- C5 session, before any call: one substep (10) declaring output {0}; a
blocking action object sits in the action store but no action is registered
yet. -/
def sessC5 : Session :=
  let s := Session.new ⟨0⟩
  let s :=
    { s with
      step_store :=
        { s.step_store with
          id_to_object := s.step_store.id_to_object ++ [mkStepEntry 10 none [0] []] },
      action_store :=
        { id_to_object := [(⟨0⟩, blockAction ⟨0⟩)], name_to_id := [], next_id := 1 },
      var_store :=
        { id_to_object := [(⟨0⟩, strVar0)], name_to_id := [], next_id := 1 } }
  s.push_root_substep ⟨10⟩

/-- C5 session after the first `advance(None)` blocked on the missing output
of step 10, now with the blocking action registered as the generic action. -/
def sessC5b : Session :=
  match Session.advance 30 sessC5 none with
  | some (_, s) => (s.set_action_for_step ⟨0⟩ none).1
  | none => sessC5

/-- C7 session: one substep (10) with a specific action (0) that cannot
fulfill and a generic action (1) that blocks. -/
def sessC7 : Session :=
  let s := Session.new ⟨0⟩
  let s :=
    { s with
      step_store :=
        { s.step_store with
          id_to_object := s.step_store.id_to_object ++ [mkStepEntry 10 none [] []] },
      action_store :=
        { id_to_object := [(⟨0⟩, cannotAction ⟨0⟩), (⟨1⟩, blockAction ⟨1⟩)],
          name_to_id := [], next_id := 2 } }
  let s := s.push_root_substep ⟨10⟩
  let s := (s.set_action_for_step ⟨0⟩ (some ⟨10⟩)).1
  (s.set_action_for_step ⟨1⟩ none).1

/-- The C3 failing input: a step store whose `u16`-truncating id assignment
has wrapped (65536 successful `insert_new` calls drive `next_id` there), with
the step that legitimately owns `StepId 0` still registered. -/
def sessC3store : ObjectStore Step StepId :=
  { id_to_object := [(⟨0⟩, Step.new ⟨0⟩ none [])], name_to_id := [], next_id := 65536 }

/-! ## C4 — a step-tree harness for the pre-order traversal claim -/

/-- A step tree: a node identity and its ordered children. -/
inductive ITree where
  | node (id : Nat) (children : List ITree)

/-- Identity of the root node. -/
def ITree.id : ITree → Nat
  | .node i _ => i

mutual

/-- Number of nodes of a tree. -/
def ITree.size : ITree → Nat
  | .node _ cs => 1 + forestSize cs

/-- Number of nodes of a forest. -/
def forestSize : List ITree → Nat
  | [] => 0
  | t :: ts => t.size + forestSize ts

end

mutual

/-- Pre-order list of the leaf (childless) node identities of a tree. -/
def ITree.leaves : ITree → List Nat
  | .node i [] => [i]
  | .node _ (c :: cs) => forestLeaves (c :: cs)

/-- Pre-order leaf identities of a forest. -/
def forestLeaves : List ITree → List Nat
  | [] => []
  | t :: ts => t.leaves ++ forestLeaves ts

end

mutual

/-- Pre-order list of all node identities of a tree. -/
def ITree.ids : ITree → List Nat
  | .node i cs => i :: forestIds cs

/-- Pre-order node identities of a forest. -/
def forestIds : List ITree → List Nat
  | [] => []
  | t :: ts => t.ids ++ forestIds ts

end

/-- The step a tree node denotes: no required inputs, no declared outputs,
the children as substeps (a childless node keeps the `None` of
`Step::new`, as repeated `push_substep` would produce). -/
def stepOfNode (i : Nat) (cs : List ITree) : Step :=
  { id := ⟨i⟩, input_vars := none, output_vars := [],
    substep_step_ids :=
      if cs.isEmpty then none
      else some (cs.map fun c => (⟨c.id⟩ : StepId)) }

mutual

/-- Step-store entries for every node of a tree, in pre-order. -/
def ITree.toEntries : ITree → List (StepId × Step)
  | .node i cs => (⟨i⟩, stepOfNode i cs) :: forestEntries cs

/-- Step-store entries for every node of a forest. -/
def forestEntries : List ITree → List (StepId × Step)
  | [] => []
  | t :: ts => t.toEntries ++ forestEntries ts

end

mutual

/-- Every node of the tree is registered in the store as its denoted step. -/
def RepT (store : ObjectStore Step StepId) : ITree → Prop
  | .node i cs => store.get ⟨i⟩ = some (stepOfNode i cs) ∧ RepF store cs

/-- Every node of the forest is registered in the store. -/
def RepF (store : ObjectStore Step StepId) : List ITree → Prop
  | [] => True
  | t :: ts => RepT store t ∧ RepF store ts

end

/-- The C4 harness session for a forest: a fresh session whose step store
additionally holds every tree node's step, with the forest's roots pushed
under the synthetic root in order and a single blocking action registered
as the generic action. -/
def sessionOfForest (ts : List ITree) : Session :=
  ((ts.foldl (fun (s : Session) t => s.push_root_substep ⟨t.id⟩)
      { Session.new ⟨0⟩ with
        step_store :=
          { (Session.new ⟨0⟩).step_store with
            id_to_object :=
              (Session.new ⟨0⟩).step_store.id_to_object ++ forestEntries ts },
        action_store :=
          { id_to_object := [(⟨0⟩, blockAction ⟨0⟩)], name_to_id := [],
            next_id := 1 } }).set_action_for_step ⟨0⟩ none).1

/-- The instrumented micro-step trace of the cursor loop: run `k` iterations
of the loop body of `DepthFirstSearch::next` from the given direction and
stack, recording at every loop exit (`brk`) the call result the epilogue
would compute at that moment together with the stack top, and continuing
the iteration afterwards; the final direction and stack are returned too. -/
def dfsTrace (canEnter canExit : StepId → Except SError Unit)
    (store : ObjectStore Step StepId) :
    Nat → DFSDirection → List StepId →
    List (Except SError (Option StepId) × Option StepId) × DFSDirection × List StepId
  | 0, dir, stack => ([], dir, stack)
  | k + 1, dir, stack =>
      match DepthFirstSearch.nextStep canEnter canExit store dir stack with
      | .next dir' stack' => dfsTrace canEnter canExit store k dir' stack'
      | .brk dir' stack' err =>
          let rest := dfsTrace canEnter canExit store k dir' stack'
          ((DepthFirstSearch.obsOf dir' stack' err, stack'.head?) :: rest.1, rest.2)

/-- `n` successive calls to `DepthFirstSearch::next` (each given `fuel` for
its loop), recording each call's result and the stack top after the call;
`none` when some call's loop runs out of fuel. -/
def nextCalls (canEnter canExit : StepId → Except SError Unit)
    (store : ObjectStore Step StepId) (fuel : Nat) :
    Nat → DFSDirection → List StepId →
    Option (List (Except SError (Option StepId) × Option StepId))
  | 0, _, _ => some []
  | n + 1, dir, stack =>
      match DepthFirstSearch.nextLoop canEnter canExit store fuel dir stack with
      | none => none
      | some (dir', stack', err) =>
          (nextCalls canEnter canExit store fuel n dir' stack').map
            fun l => (DepthFirstSearch.obsOf dir' stack' err, stack'.head?) :: l

/-- `n` successive `advance(None)` calls on a session, recording each call's
result and the cursor's current step after the call; `none` when some call's
fuel runs out. -/
def runAdvance (fuel : Nat) :
    Nat → Session → Option (List (Except SError AdvanceBlockedOn × Option StepId))
  | 0, _ => some []
  | n + 1, sess =>
      match Session.advance fuel sess none with
      | none => none
      | some (r, sess') =>
          (runAdvance fuel n sess').map fun l => (r, sess'.step_id_dfs.current) :: l

/-- What one `advance(None)` call reports when its cursor call reports the
given observation and the only registered action is the blocking generic
action `0`. -/
def advObs :
    Except SError (Option StepId) × Option StepId →
    Except SError AdvanceBlockedOn × Option StepId
  | (.ok (some _), hd) => (.ok (.actionStartWith ⟨0⟩ (.boolV true)), hd)
  | (.ok none, hd) => (.ok .finishedAdvancing, hd)
  | (.error e, hd) => (.error e, hd)

/-! ## Association-list lemmas -/

theorem lookupKV_insertKV_self {K V : Type} [DecidableEq K]
    (l : List (K × V)) (k : K) (v : V) : lookupKV (insertKV l k v) k = some v := by
  induction l with
  | nil => simp [insertKV, lookupKV]
  | cons hd tl ih =>
      obtain ⟨k', v'⟩ := hd
      by_cases h : k' = k <;> simp [insertKV, lookupKV, h, ih]

theorem lookupKV_insertKV_ne {K V : Type} [DecidableEq K]
    (l : List (K × V)) (k k' : K) (v : V) (h : k ≠ k') :
    lookupKV (insertKV l k v) k' = lookupKV l k' := by
  induction l with
  | nil => simp [insertKV, lookupKV, h]
  | cons hd tl ih =>
      obtain ⟨k0, v0⟩ := hd
      by_cases h0 : k0 = k
      · subst h0
        simp [insertKV, lookupKV, h]
      · simp [insertKV, h0, lookupKV]
        by_cases h1 : k0 = k' <;> simp [h1, ih]

/-- Replacing a binding by the value it already has leaves the list unchanged. -/
theorem insertKV_lookup_self {K V : Type} [DecidableEq K]
    (l : List (K × V)) (k : K) (v : V) (h : lookupKV l k = some v) :
    insertKV l k v = l := by
  induction l with
  | nil => simp [lookupKV] at h
  | cons hd tl ih =>
      obtain ⟨k0, v0⟩ := hd
      by_cases h0 : k0 = k
      · subst h0
        simp [lookupKV] at h
        simp [insertKV, h]
      · simp [lookupKV, h0] at h
        simp [insertKV, h0, ih h]

theorem mem_insertKV {K V : Type} [DecidableEq K]
    {l : List (K × V)} {k : K} {v : V} {kv : K × V} (h : kv ∈ insertKV l k v) :
    kv = (k, v) ∨ kv ∈ l := by
  induction l with
  | nil => simpa [insertKV] using h
  | cons hd tl ih =>
      obtain ⟨k0, v0⟩ := hd
      by_cases h0 : k0 = k
      · subst h0
        simp [insertKV] at h
        rcases h with h | h
        · exact .inl (by simp [h])
        · exact .inr (by simp [h])
      · simp [insertKV, h0] at h
        rcases h with h | h
        · exact .inr (by simp [h])
        · rcases ih h with h | h
          · exact .inl h
          · exact .inr (by simp [h])

/-! ## C10 — a fresh session's first advance finishes -/

/-- C10: for a freshly constructed `Session` with no substeps under the
synthetic root and no actions registered, the first `advance(None)` returns
`Ok(FinishedAdvancing)` (not an error, not a blocked result), even though the
cursor initially reports the synthetic root step as current. -/
theorem fresh_session_first_advance_finishes (sid : SessionId) :
    Session.advance 10 (Session.new sid) none =
      some (.ok .finishedAdvancing,
        { Session.new sid with step_id_dfs := ⟨[], .Done⟩ }) ∧
    (Session.new sid).current_step = .ok (Session.new sid).step_id_root := ⟨rfl, rfl⟩

/-! ## C3 — step identities are not 32-bit: `Step`'s `new_id` takes a `u16` -/

/-- C3 (failing input): the `ObjectStoreContent for Step` impl declares
`fn new_id(id_val: u16)` although the trait and `StepId` (a `u32` newtype)
require `u32`, so step identities truncate at `2 ^ 16`: the raw counter
values 65536 and 0 yield the same step identity; on a step store whose
counter has reached 65536 with the owner of `StepId 0` still registered,
`reserve_id` hands out `StepId 0` again — neither fresh nor increasing — and
registering a step built from that freshly reserved identity fails with
`IdAlreadyExists`. A `Var` id from the same raw counter value keeps all 32
bits, showing the step impl deviates from the trait's scheme. -/
theorem step_new_id_truncates_to_16_bits :
    Step.new_id 65536 = Step.new_id 0 ∧
    sessC3store.reserve_id.1 = ⟨0⟩ ∧
    sessC3store.register (Step.new sessC3store.reserve_id.1 none []) =
      .error (.idAlreadyExists ⟨0⟩) ∧
    (ObjectStoreContent.new_id (T := Var) 65536 : VarId) = ⟨65536⟩ :=
  ⟨rfl, rfl, rfl, rfl⟩

/-! ## C9 — the validation gate on state data -/

theorem validVal_try_new_ok {val : Value} {var : Var} {vv : ValidVal}
    (h : ValidVal.try_new val var = .ok vv) :
    vv.val = val ∧ vv.validated_by = var.id ∧
      var.validate_val_type val = .ok () := by
  unfold ValidVal.try_new at h
  unfold Var.validate_val_type at h ⊢
  by_cases hk : val.kind = var.kind
  · simp [hk] at h ⊢
    simp [← h]
  · simp [hk] at h

/-- C9: state mutations go through the validation gate. (1) When validation
fails, `StateData::insert` returns the error and leaves the data unchanged;
(2) a fresh `StateData` is validated; (3) `insert` preserves validatedness —
the value stored went through `ValidVal::try_new` against a var whose
identity is the key it is stored under; (4) `merge_from` of validated data
into validated data stays validated. -/
theorem statedata_validation_gate :
    (∀ (sd : StateData) (var : Var) (val : Value) (e : InvalidValue),
      ValidVal.try_new val var = .error e →
      StateData.insert sd var val = (sd, .error e)) ∧
    StateData.Validated StateData.new ∧
    (∀ (sd : StateData) (var : Var) (val : Value),
      sd.Validated → (StateData.insert sd var val).1.Validated) ∧
    (∀ a b : StateData, a.Validated → b.Validated → (a.merge_from b).Validated) := by
  refine ⟨?_, ?_, ?_, ?_⟩
  · intro sd var val e h
    unfold StateData.insert
    rw [h]
  · intro kv h
    simp [StateData.new] at h
  · intro sd var val hsd
    unfold StateData.insert
    cases htn : ValidVal.try_new val var with
    | error e => exact hsd
    | ok vv =>
        intro kv hkv
        simp at hkv
        rcases mem_insertKV hkv with h | h
        · subst h
          obtain ⟨hval, hby, hty⟩ := validVal_try_new_ok htn
          refine ⟨var, by simp [hby], ?_⟩
          rw [hval, htn]
        · exact hsd kv h
  · intro a b ha hb
    unfold StateData.merge_from
    have key : ∀ (src : List (VarId × ValidVal)) (acc : List (VarId × ValidVal)),
        (∀ kv ∈ acc, ConstructedThroughGate kv.1 kv.2) →
        (∀ kv ∈ src, ConstructedThroughGate kv.1 kv.2) →
        ∀ kv ∈ src.foldl (fun acc (kv : VarId × ValidVal) => insertKV acc kv.1 kv.2) acc,
          ConstructedThroughGate kv.1 kv.2 := by
      intro src
      induction src with
      | nil => intro acc hacc _ kv hkv; exact hacc kv hkv
      | cons hd tl ih =>
          intro acc hacc hsrc kv hkv
          refine ih (insertKV acc hd.1 hd.2) ?_ (fun x hx => hsrc x (by simp [hx])) kv hkv
          intro x hx
          rcases mem_insertKV hx with h | h
          · subst h
            exact hsrc hd (by simp)
          · exact hacc x h
    exact key b.data a.data ha hb

/-- Witness for C9: inserting a `TrueValue` under a string var fails with
`WrongType` and leaves the state data untouched. -/
theorem statedata_validation_gate_witness :
    StateData.insert StateData.new strVar0 .trueV = (StateData.new, .error .WrongType) :=
  statedata_validation_gate.1 StateData.new strVar0 .trueV .WrongType rfl

/-! ## C1 — output-shape check on `Finished` data -/

/-- C1 is refuted on `sessC1`: the generic action invoked by `advance` for
step 10 returned `Finished(dataV0)` whose identity set {0} is a proper subset
of — hence not exactly equal to — the step's declared outputs {0, 1}, yet the
call did not fail with `InvalidStateDataError` (it returned
`Ok(ActionStartWith ...)`) and the data WAS merged into the session's
`StateData` (var 0 is present afterwards). -/
theorem finished_subset_accepted_and_merged :
    (Session.advanceAux 30 30 .advanceStep sessC1 none []).map
        (fun p => (p.1, p.2.1.state_data.contains ⟨0⟩, p.2.1.state_data.contains ⟨1⟩, p.2.2)) =
      some (.ok (.actionStartWith ⟨0⟩ (.boolV true)), true, false,
        [⟨false, ⟨0⟩, ⟨10⟩, .ok (.finished dataV0)⟩,
         ⟨false, ⟨0⟩, ⟨10⟩, .ok (.startWith (.boolV true))⟩]) ∧
    dataV0.data.map Prod.fst = [⟨0⟩] ∧
    (sessC1.step_store.get ⟨10⟩).map Step.output_vars = some [⟨0⟩, ⟨1⟩] ∧
    dataV0.contains ⟨1⟩ = false := by
  refine ⟨?_, rfl, rfl, rfl⟩
  rfl

/-- C1 amended: `call_action` rejects a `Finished` result exactly when its
data holds an identity outside the step's declared outputs (`contains_only`
fails); in that case it returns `InvalidStateDataError`, and `call_action`
itself never touches the session's `StateData` — `Finished` data is merged
only by `advance` after an `Ok`. Data whose identities form a subset of the
outputs, even a proper one, is accepted. -/
theorem call_action_output_shape (sess : Session) (action_id : ActionId)
    (step_id : StepId) (step : Step) (action : ActionObj) (d : StateData) (st' : Nat)
    (hstep : sess.step_store.get step_id = some step)
    (hact : sess.action_store.get action_id = some action)
    (hrun : action.run action.st step (sess.step_store.name_from_id step_id)
        (Session.call_action_step_data sess step)
        (Session.get_step_input_output_vars step) = (.ok (.finished d), st')) :
    (Session.call_action sess action_id step_id).1.state_data = sess.state_data ∧
    (Session.call_action sess action_id step_id).2 =
      (if d.contains_only step.output_vars then .ok (.finished d)
       else .error .invalidStateDataError) := by
  unfold Session.call_action
  rw [hstep, hact]
  simp only [hrun]
  by_cases h : d.contains_only step.output_vars = true <;> simp [h]

/-- Witness for C1's amended theorem: on `sessC1`'s initial configuration,
running the registered action against step 10 with the action in its initial
state yields `Finished(dataV0)`, a proper subset of the outputs, which the
shape check accepts. -/
theorem call_action_output_shape_witness :
    (Session.call_action sessC1 ⟨0⟩ ⟨10⟩).1.state_data = sessC1.state_data ∧
    (Session.call_action sessC1 ⟨0⟩ ⟨10⟩).2 =
      (if dataV0.contains_only (mkStepEntry 10 none [0, 1] []).2.output_vars
       then .ok (.finished dataV0) else .error .invalidStateDataError) :=
  call_action_output_shape sessC1 ⟨0⟩ ⟨10⟩
    (mkStepEntry 10 none [0, 1] []).2 finishThenBlockAction dataV0 1 rfl rfl rfl

/-! ## C5 — mismatched step identity in a supplied output -/

/-- C5 is refuted on `sessC5b`: the current step (10) requires output var 0,
the supplied output names step 99 ≠ 10, yet `advance` returns
`Ok(ActionStartWith ...)` — the registered generic action swallowed the
mismatch error — not the unexpected-identity error. (The supplied data is
still not merged: var 0 stays absent.) -/
theorem advance_mismatch_swallowed_by_action :
    sessC5b.current_step = .ok ⟨10⟩ ∧
    (sessC5b.step_store.get ⟨10⟩).map Step.output_vars = some [⟨0⟩] ∧
    (Session.advance 30 sessC5b (some (⟨99⟩, dataV0))).map
        (fun p => (p.1, p.2.state_data.contains ⟨0⟩)) =
      some (.ok (.actionStartWith ⟨0⟩ (.boolV true)), false) := by
  refine ⟨rfl, rfl, ?_⟩
  rfl

/-- C5 amended: supplying an output whose step identity differs from the
cursor's current step never merges the supplied data, and — provided the
session resolves no action for the current step (no specific action and no
generic fallback) — the `advance` call fails with the unexpected-identity
error naming the supplied identity and returns the session completely
unchanged. (With an action registered, the carried error may instead be
swallowed by the action, as the counterexample shows.) -/
theorem try_enter_mismatch (sess : Session) (sid cur : StepId) (d : StateData)
    (dfsFuel : Nat) (hcur : sess.current_step = .ok cur) (hne : sid ≠ cur) :
    Session.try_enter_next_step dfsFuel sess (some (sid, d)) =
      some (sess, .error (.stepId (.idUnexpected sid))) := by
  have hne' : cur ≠ sid := fun h => hne h.symm
  simp only [Session.try_enter_next_step, Session.try_enter_checked, hcur]
  rw [if_pos hne']

theorem advance_mismatched_output (sess : Session) (sid : StepId) (d : StateData)
    (cur : StepId) (fuel : Nat)
    (hcur : sess.current_step = .ok cur) (hne : sid ≠ cur)
    (hspec : lookupKV sess.actions cur = none)
    (hgen : lookupKV sess.actions sess.step_id_all = none)
    (hfuel : 3 ≤ fuel) :
    Session.advance fuel sess (some (sid, d)) =
      some (.error (.stepId (.idUnexpected sid)), sess) := by
  obtain ⟨k, rfl⟩ : ∃ k, fuel = k + 3 := ⟨fuel - 3, by omega⟩
  simp only [Session.advance, Session.advanceAux,
    try_enter_mismatch sess sid cur d (k + 3) hcur hne, hcur, hspec, hgen]
  rfl

/-- Witness for C5's amended theorem: on `sessC5` (no actions registered,
current step is the synthetic root, identity 1), supplying an output for
step 99 fails with the unexpected-identity error and leaves the session
unchanged. -/
theorem advance_mismatched_output_witness :
    Session.advance 3 sessC5 (some (⟨99⟩, dataV0)) =
      some (.error (.stepId (.idUnexpected ⟨99⟩)), sessC5) :=
  advance_mismatched_output sessC5 ⟨99⟩ dataV0 ⟨1⟩ 3 rfl (by decide) rfl rfl (by decide)

/-! ## C6 — gating failures leave the cursor in place and are retried -/

/-- Exhaustive description of `go_down`'s outcomes. -/
theorem go_down_cases {canEnter : StepId → Except SError Unit}
    {store : ObjectStore Step StepId} {stack st' : List StepId} {step : DFSStep}
    (h : DepthFirstSearch.go_down canEnter store stack = (step, st')) :
    (step = .NothingMoreInStack ∧ st' = stack ∧ stack = []) ∨
    (∃ e, step = .CannotGoto e ∧ st' = stack) ∨
    (∃ c, step = .DownTo c ∧ st' = c :: stack) ∨
    (step = .NothingMoreDown ∧ st' = stack ∧ stack ≠ []) := by
  unfold DepthFirstSearch.go_down at h
  split at h
  · simp at h
    exact .inl ⟨h.1.symm, h.2, rfl⟩
  · split at h
    · split at h
      · simp at h
        exact .inr (.inl ⟨_, h.1.symm, h.2.symm⟩)
      · simp at h
        exact .inr (.inr (.inl ⟨_, h.1.symm, h.2.symm⟩))
    · simp at h
      exact .inr (.inr (.inr ⟨h.1.symm, h.2.symm, by simp⟩))

/-- Exhaustive description of `go_sibling_or_up`'s outcomes. -/
theorem go_sibling_or_up_cases {canEnter canExit : StepId → Except SError Unit}
    {store : ObjectStore Step StepId} {stack st' : List StepId} {step : DFSStep}
    (h : DepthFirstSearch.go_sibling_or_up canEnter canExit store stack = (step, st')) :
    (step = .NothingMoreInStack ∧ st' = stack ∧ stack = []) ∨
    (∃ e, step = .CannotLeaveForSibling e ∧ st' = stack) ∨
    (∃ e, step = .CannotGoto e ∧ st' = stack) ∨
    (∃ c top rest, stack = top :: rest ∧ step = .SiblingTo c ∧ st' = c :: rest) ∨
    (∃ top rest, stack = top :: rest ∧ step = .PoppedUp ∧ st' = rest) := by
  unfold DepthFirstSearch.go_sibling_or_up at h
  split at h
  · simp at h
    exact .inl ⟨h.1.symm, h.2, rfl⟩
  · rename_i top rest
    split at h
    · simp at h
      exact .inr (.inl ⟨_, h.1.symm, h.2.symm⟩)
    · split at h
      · split at h
        · simp at h
          exact .inr (.inr (.inl ⟨_, h.1.symm, h.2.symm⟩))
        · simp at h
          exact .inr (.inr (.inr (.inl ⟨_, top, rest, rfl, h.1.symm, h.2.symm⟩)))
      · simp at h
        exact .inr (.inr (.inr (.inr ⟨top, rest, rfl, h.1.symm, h.2.symm⟩)))

/-- A loop iteration that exits with a gate error leaves direction and stack
exactly as they were when the failing check ran. -/
theorem nextStep_brk_error {canEnter canExit : StepId → Except SError Unit}
    {store : ObjectStore Step StepId} {dir d : DFSDirection}
    {stack s : List StepId} {e : SError}
    (h : DepthFirstSearch.nextStep canEnter canExit store dir stack = .brk d s (some e)) :
    d = dir ∧ s = stack := by
  unfold DepthFirstSearch.nextStep at h
  cases dir with
  | Down =>
      simp only at h
      cases hgd : DepthFirstSearch.go_down canEnter store stack with
      | mk fst snd =>
          rw [hgd] at h
          rcases go_down_cases hgd with ⟨h1, h2, _⟩ | ⟨e', h1, h2⟩ | ⟨c, h1, h2⟩ | ⟨h1, h2, _⟩ <;>
            subst h1 <;> simp at h <;> simp_all
  | SiblingOrUp =>
      simp only at h
      cases hgs : DepthFirstSearch.go_sibling_or_up canEnter canExit store stack with
      | mk fst snd =>
          rw [hgs] at h
          rcases go_sibling_or_up_cases hgs with
            ⟨h1, h2, _⟩ | ⟨e', h1, h2⟩ | ⟨e', h1, h2⟩ |
            ⟨c, top, rest, _, h1, h2⟩ | ⟨top, rest, _, h1, h2⟩ <;>
            subst h1 <;> simp at h <;> simp_all
  | Done => simp at h

/-- A loop iteration that exits without an error exits either exhausted
(direction `Done`) or at a node (direction `SiblingOrUp`, non-empty stack). -/
theorem nextStep_brk_none {canEnter canExit : StepId → Except SError Unit}
    {store : ObjectStore Step StepId} {dir d : DFSDirection}
    {stack s : List StepId}
    (h : DepthFirstSearch.nextStep canEnter canExit store dir stack = .brk d s none) :
    d = .Done ∨ (d = .SiblingOrUp ∧ s ≠ []) := by
  unfold DepthFirstSearch.nextStep at h
  cases dir with
  | Down =>
      simp only at h
      cases hgd : DepthFirstSearch.go_down canEnter store stack with
      | mk fst snd =>
          rw [hgd] at h
          rcases go_down_cases hgd with ⟨h1, h2, _⟩ | ⟨e', h1, h2⟩ | ⟨c, h1, h2⟩ | ⟨h1, h2, h3⟩ <;>
            subst h1 <;> simp at h
          · exact .inl h.1.symm
          · subst h2
            exact .inr ⟨h.1.symm, h.2 ▸ h3⟩
  | SiblingOrUp =>
      simp only at h
      cases hgs : DepthFirstSearch.go_sibling_or_up canEnter canExit store stack with
      | mk fst snd =>
          rw [hgs] at h
          rcases go_sibling_or_up_cases hgs with
            ⟨h1, h2, _⟩ | ⟨e', h1, h2⟩ | ⟨e', h1, h2⟩ |
            ⟨c, top, rest, _, h1, h2⟩ | ⟨top, rest, _, h1, h2⟩ <;>
            subst h1 <;> simp at h
          exact .inl h.1.symm
  | Done =>
      simp only at h
      simp at h
      exact .inl h.1.symm

/-- When the loop ends in a gate error, the failing iteration is re-runnable:
from the recorded direction and stack, the very next iteration fails the same
way. -/
theorem nextLoop_error_stable {canEnter canExit : StepId → Except SError Unit}
    {store : ObjectStore Step StepId} :
    ∀ {fuel : Nat} {dir dir' : DFSDirection} {stack stack' : List StepId} {e : SError},
    DepthFirstSearch.nextLoop canEnter canExit store fuel dir stack =
      some (dir', stack', some e) →
    DepthFirstSearch.nextStep canEnter canExit store dir' stack' =
      .brk dir' stack' (some e) := by
  intro fuel
  induction fuel with
  | zero => intro _ _ _ _ _ h; simp [DepthFirstSearch.nextLoop] at h
  | succ n ih =>
      intro dir dir' stack stack' e h
      unfold DepthFirstSearch.nextLoop at h
      cases hns : DepthFirstSearch.nextStep canEnter canExit store dir stack with
      | next d s => rw [hns] at h; exact ih h
      | brk d s err =>
          rw [hns] at h
          simp at h
          obtain ⟨hd, hs, herr⟩ := h
          subst hd; subst hs; subst herr
          obtain ⟨hd, hs⟩ := nextStep_brk_error hns
          subst hd; subst hs
          exact hns

/-- A loop that ends without error cannot leave a non-`Done` direction with
an empty stack (so `Error::NoStateToEval` is unreachable). -/
theorem nextLoop_none_shape {canEnter canExit : StepId → Except SError Unit}
    {store : ObjectStore Step StepId} :
    ∀ {fuel : Nat} {dir dir' : DFSDirection} {stack stack' : List StepId},
    DepthFirstSearch.nextLoop canEnter canExit store fuel dir stack =
      some (dir', stack', none) →
    dir' = .Done ∨ (dir' = .SiblingOrUp ∧ stack' ≠ []) := by
  intro fuel
  induction fuel with
  | zero => intro _ _ _ _ h; simp [DepthFirstSearch.nextLoop] at h
  | succ n ih =>
      intro dir dir' stack stack' h
      unfold DepthFirstSearch.nextLoop at h
      cases hns : DepthFirstSearch.nextStep canEnter canExit store dir stack with
      | next d s => rw [hns] at h; exact ih h
      | brk d s err =>
          rw [hns] at h
          simp at h
          obtain ⟨hd, hs, herr⟩ := h
          subst hd; subst hs; subst herr
          exact nextStep_brk_none hns

/-- C6: (1) whenever `next()` surfaces a gating error, the cursor it leaves
behind is exactly the state at the moment of the failure, and a further
`next()` call (any fuel) retries the same gating check and fails identically,
leaving the cursor unchanged again; (2) exit-check priority — when the
direction is `SiblingOrUp` and `can_exit` fails on the current node, that
error is surfaced no matter what `can_enter` would say about a sibling, and
the cursor is unchanged. -/
theorem dfs_gate_error_frame :
    (∀ (fuel f' : Nat) (dfs dfs' : DepthFirstSearch)
       (canEnter canExit : StepId → Except SError Unit)
       (store : ObjectStore Step StepId) (e : SError),
      dfs.next fuel canEnter canExit store = some (dfs', .error e) → 1 ≤ f' →
      dfs'.next f' canEnter canExit store = some (dfs', .error e)) ∧
    (∀ (f' : Nat) (dfs : DepthFirstSearch)
       (canEnter canExit : StepId → Except SError Unit)
       (store : ObjectStore Step StepId) (top : StepId) (rest : List StepId) (e : SError),
      dfs.next_direction = .SiblingOrUp → dfs.stack = top :: rest →
      canExit top = .error e → 1 ≤ f' →
      dfs.next f' canEnter canExit store = some (dfs, .error e)) := by
  constructor
  · intro fuel f' dfs dfs' canEnter canExit store e h hf'
    unfold DepthFirstSearch.next at h ⊢
    cases hl : DepthFirstSearch.nextLoop canEnter canExit store fuel
        dfs.next_direction dfs.stack with
    | none => rw [hl] at h; simp at h
    | some out =>
        rw [hl] at h
        obtain ⟨d, s, err⟩ := out
        simp at h
        cases err with
        | some e' =>
            simp [DepthFirstSearch.obsOf] at h
            obtain ⟨hdfs, he⟩ := h
            subst he
            have hstable := nextLoop_error_stable hl
            obtain ⟨m, rfl⟩ : ∃ m, f' = m + 1 := ⟨f' - 1, by omega⟩
            rw [← hdfs]
            simp only [DepthFirstSearch.nextLoop, hstable]
            rfl
        | none =>
            rcases nextLoop_none_shape hl with hdone | ⟨hsib, hne⟩
            · subst hdone; simp [DepthFirstSearch.obsOf] at h
            · subst hsib
              simp [DepthFirstSearch.obsOf] at h
              cases hs : s.head? with
              | some t => rw [hs] at h; simp at h
              | none => simp [List.head?_eq_none_iff] at hs; exact absurd hs hne
  · intro f' dfs canEnter canExit store top rest e hdir hstack hexit hf'
    obtain ⟨m, rfl⟩ : ∃ m, f' = m + 1 := ⟨f' - 1, by omega⟩
    obtain ⟨stack, dir⟩ := dfs
    simp at hdir hstack
    subst hdir; subst hstack
    unfold DepthFirstSearch.next DepthFirstSearch.nextLoop DepthFirstSearch.nextStep
      DepthFirstSearch.go_sibling_or_up
    simp [hexit, DepthFirstSearch.obsOf]

/-- Witness for C6: a one-node cursor in `SiblingOrUp` whose exit gate fails
surfaces that error and stays put; both conjuncts applied at it. -/
theorem dfs_gate_error_frame_witness :
    DepthFirstSearch.next 5 ⟨[⟨1⟩], .SiblingOrUp⟩
        (fun _ => .ok ()) (fun _ => .error .invalidStateDataError)
        (ObjectStore.with_capacity 0) =
      some (⟨[⟨1⟩], .SiblingOrUp⟩, .error .invalidStateDataError) := by
  have h2 := dfs_gate_error_frame.2 5 ⟨[⟨1⟩], .SiblingOrUp⟩
    (fun _ => .ok ()) (fun _ => .error .invalidStateDataError)
    (ObjectStore.with_capacity 0) ⟨1⟩ [] .invalidStateDataError rfl rfl rfl
    (by omega)
  exact h2

/-! ## C8 — "finished advancing" is terminal and idempotent -/

/-- Once the cursor's direction is `Done`, `next()` returns "no more steps"
without error and without touching the cursor. -/
theorem dfs_done_stays_done (f : Nat) (dfs : DepthFirstSearch)
    (canEnter canExit : StepId → Except SError Unit)
    (store : ObjectStore Step StepId)
    (hdir : dfs.next_direction = .Done) (hf : 1 ≤ f) :
    dfs.next f canEnter canExit store = some (dfs, .ok none) := by
  obtain ⟨m, rfl⟩ : ∃ m, f = m + 1 := ⟨f - 1, by omega⟩
  obtain ⟨stack, dir⟩ := dfs
  simp at hdir
  subst hdir
  rfl

/-- `next()` reports exhaustion only with the direction flag at `Done`. -/
theorem next_ok_none_done {fuel : Nat} {dfs dfs' : DepthFirstSearch}
    {canEnter canExit : StepId → Except SError Unit}
    {store : ObjectStore Step StepId}
    (h : dfs.next fuel canEnter canExit store = some (dfs', .ok none)) :
    dfs'.next_direction = .Done := by
  unfold DepthFirstSearch.next at h
  cases hl : DepthFirstSearch.nextLoop canEnter canExit store fuel
      dfs.next_direction dfs.stack with
  | none => rw [hl] at h; simp at h
  | some out =>
      rw [hl] at h
      obtain ⟨d, s, err⟩ := out
      simp at h
      cases err with
      | some e => simp [DepthFirstSearch.obsOf] at h
      | none =>
          by_cases hd : d = .Done
          · subst hd
            simp [DepthFirstSearch.obsOf] at h
            rw [← h]
          · simp [hd, DepthFirstSearch.obsOf] at h
            cases hs : s.head? with
            | some t => rw [hs] at h; simp at h
            | none => rw [hs] at h; simp at h

/-! Definitional equations for `advanceAux`, one per machine state. -/

theorem advanceAux_zero (dfsFuel : Nat) (st : Session.AdvState) (sess : Session)
    (out : Option (StepId × StateData)) (tr : List Session.TraceEntry) :
    Session.advanceAux dfsFuel 0 st sess out tr = none := rfl

theorem advanceAux_done (dfsFuel n : Nat) (result : Except SError AdvanceBlockedOn)
    (sess : Session) (out : Option (StepId × StateData)) (tr : List Session.TraceEntry) :
    Session.advanceAux dfsFuel (n + 1) (.done result) sess out tr =
      some (result, sess, tr) := rfl

theorem advanceAux_advanceStep (dfsFuel n : Nat) (sess : Session)
    (out : Option (StepId × StateData)) (tr : List Session.TraceEntry) :
    Session.advanceAux dfsFuel (n + 1) .advanceStep sess out tr =
      (match Session.try_enter_next_step dfsFuel sess out with
       | none => none
       | some (sess, advance_result) =>
           match advance_result with
           | .ok (some step_id) =>
               Session.advanceAux dfsFuel n (.getSpecificAction step_id none) sess none tr
           | .ok none =>
               Session.advanceAux dfsFuel n (.done (.ok .finishedAdvancing)) sess none tr
           | .error err =>
               match sess.current_step with
               | .error e => some (.error e, sess, tr)
               | .ok step_id =>
                   Session.advanceAux dfsFuel n (.getSpecificAction step_id (some err)) sess none tr) := rfl

theorem advanceAux_getSpecific (dfsFuel n : Nat) (step_id : StepId)
    (error : Option SError) (sess : Session) (out : Option (StepId × StateData))
    (tr : List Session.TraceEntry) :
    Session.advanceAux dfsFuel (n + 1) (.getSpecificAction step_id error) sess out tr =
      (match lookupKV sess.actions step_id with
       | some action_id =>
           Session.advanceAux dfsFuel n (.startSpecific action_id step_id error) sess none tr
       | none => Session.advanceAux dfsFuel n (.getGenericAction step_id error) sess none tr) := rfl

theorem advanceAux_getGeneric (dfsFuel n : Nat) (step_id : StepId)
    (error : Option SError) (sess : Session) (out : Option (StepId × StateData))
    (tr : List Session.TraceEntry) :
    Session.advanceAux dfsFuel (n + 1) (.getGenericAction step_id error) sess out tr =
      (match lookupKV sess.actions sess.step_id_all with
       | some action_id =>
           Session.advanceAux dfsFuel n (.startGeneric action_id step_id error) sess none tr
       | none =>
           match error with
           | none => Session.advanceAux dfsFuel n .advanceStep sess none tr
           | some err => some (.error err, sess, tr)) := rfl

theorem advanceAux_startSpecific (dfsFuel n : Nat) (action_id : ActionId)
    (step_id : StepId) (error_opt : Option SError) (sess : Session)
    (out : Option (StepId × StateData)) (tr : List Session.TraceEntry) :
    Session.advanceAux dfsFuel (n + 1) (.startSpecific action_id step_id error_opt) sess out tr =
      (match (Session.call_action sess action_id step_id).2 with
       | .error e =>
           some (.error e, (Session.call_action sess action_id step_id).1,
             tr ++ [⟨true, action_id, step_id, (Session.call_action sess action_id step_id).2⟩])
       | .ok (.startWith val) =>
           Session.advanceAux dfsFuel n (.done (.ok (.actionStartWith action_id val)))
             (Session.call_action sess action_id step_id).1 none
             (tr ++ [⟨true, action_id, step_id, (Session.call_action sess action_id step_id).2⟩])
       | .ok (.finished state_data) =>
           Session.advanceAux dfsFuel n .advanceStep
             { (Session.call_action sess action_id step_id).1 with
               state_data :=
                 (Session.call_action sess action_id step_id).1.state_data.merge_from state_data }
             none
             (tr ++ [⟨true, action_id, step_id, (Session.call_action sess action_id step_id).2⟩])
       | .ok .cannotFulfill =>
           Session.advanceAux dfsFuel n (.getGenericAction step_id error_opt)
             (Session.call_action sess action_id step_id).1 none
             (tr ++ [⟨true, action_id, step_id, (Session.call_action sess action_id step_id).2⟩])) := rfl

theorem advanceAux_startGeneric (dfsFuel n : Nat) (action_id : ActionId)
    (step_id : StepId) (error_opt : Option SError) (sess : Session)
    (out : Option (StepId × StateData)) (tr : List Session.TraceEntry) :
    Session.advanceAux dfsFuel (n + 1) (.startGeneric action_id step_id error_opt) sess out tr =
      (match (Session.call_action sess action_id step_id).2 with
       | .error e =>
           some (.error e, (Session.call_action sess action_id step_id).1,
             tr ++ [⟨false, action_id, step_id, (Session.call_action sess action_id step_id).2⟩])
       | .ok (.startWith val) =>
           Session.advanceAux dfsFuel n (.done (.ok (.actionStartWith action_id val)))
             (Session.call_action sess action_id step_id).1 none
             (tr ++ [⟨false, action_id, step_id, (Session.call_action sess action_id step_id).2⟩])
       | .ok (.finished state_data) =>
           Session.advanceAux dfsFuel n .advanceStep
             { (Session.call_action sess action_id step_id).1 with
               state_data :=
                 (Session.call_action sess action_id step_id).1.state_data.merge_from state_data }
             none
             (tr ++ [⟨false, action_id, step_id, (Session.call_action sess action_id step_id).2⟩])
       | .ok .cannotFulfill =>
           Session.advanceAux dfsFuel n (.done (.ok .actionCannotFulfill))
             (Session.call_action sess action_id step_id).1 none
             (tr ++ [⟨false, action_id, step_id, (Session.call_action sess action_id step_id).2⟩])) := rfl

/-- `try_enter_go` reports exhaustion only with the cursor at `Done`. -/
theorem try_enter_go_ok_none_done {dfsFuel : Nat} {sess sess' : Session}
    (h : Session.try_enter_go dfsFuel sess = some (sess', .ok none)) :
    sess'.step_id_dfs.next_direction = .Done := by
  unfold Session.try_enter_go at h
  cases hnext : sess.step_id_dfs.next dfsFuel
      (Session.enterGate sess.step_store sess.state_data)
      (Session.exitGate sess.step_store sess.state_data) sess.step_store with
  | none => rw [hnext] at h; simp at h
  | some out2 =>
      rw [hnext] at h
      obtain ⟨dfs', result⟩ := out2
      simp at h
      obtain ⟨hs, hr⟩ := h
      subst hr
      have := next_ok_none_done hnext
      rw [← hs]
      exact this

/-- `try_enter_next_step` reports exhaustion only with the cursor at `Done`. -/
theorem try_enter_ok_none_done {dfsFuel : Nat} {sess sess' : Session}
    {out : Option (StepId × StateData)}
    (h : Session.try_enter_next_step dfsFuel sess out = some (sess', .ok none)) :
    sess'.step_id_dfs.next_direction = .Done := by
  unfold Session.try_enter_next_step at h
  cases hc : Session.try_enter_checked sess out with
  | inr e => rw [hc] at h; simp at h
  | inl sess2 =>
      rw [hc] at h
      exact try_enter_go_ok_none_done h

/-- Any `advance` run that reports `FinishedAdvancing` leaves the cursor's
direction at `Done` (provided a state carrying a ready-made
`FinishedAdvancing` result is only entered with the cursor already `Done`,
which holds for the entry state `AdvanceStep`). -/
theorem advanceAux_finished_done {dfsFuel : Nat} :
    ∀ {fuel : Nat} {st : Session.AdvState} {sess : Session}
      {out : Option (StepId × StateData)} {tr tr' : List Session.TraceEntry}
      {s' : Session},
    Session.advanceAux dfsFuel fuel st sess out tr =
      some (.ok .finishedAdvancing, s', tr') →
    (st = .done (.ok .finishedAdvancing) → sess.step_id_dfs.next_direction = .Done) →
    s'.step_id_dfs.next_direction = .Done := by
  intro fuel
  induction fuel with
  | zero => intro st sess out tr tr' s' h _; simp [advanceAux_zero] at h
  | succ n ih =>
      intro st sess out tr tr' s' h hinv
      match st with
      | .done result =>
          rw [advanceAux_done] at h
          simp at h
          obtain ⟨hr, hs, _⟩ := h
          subst hr
          subst hs
          exact hinv rfl
      | .advanceStep =>
          rw [advanceAux_advanceStep] at h
          cases hte : Session.try_enter_next_step dfsFuel sess out with
          | none => rw [hte] at h; simp at h
          | some p =>
              obtain ⟨sess2, res⟩ := p
              rw [hte] at h
              match res with
              | .ok (some step_id) =>
                  exact ih h (fun heq => by simp at heq)
              | .ok none =>
                  exact ih h (fun _ => try_enter_ok_none_done hte)
              | .error err =>
                  dsimp only at h
                  cases hcs : sess2.current_step with
                  | error e => rw [hcs] at h; simp at h
                  | ok step_id =>
                      rw [hcs] at h
                      exact ih h (fun heq => by simp at heq)
      | .getSpecificAction step_id error =>
          rw [advanceAux_getSpecific] at h
          cases hla : lookupKV sess.actions step_id with
          | some action_id =>
              rw [hla] at h
              exact ih h (fun heq => by simp at heq)
          | none =>
              rw [hla] at h
              exact ih h (fun heq => by simp at heq)
      | .getGenericAction step_id error =>
          rw [advanceAux_getGeneric] at h
          cases hla : lookupKV sess.actions sess.step_id_all with
          | some action_id =>
              rw [hla] at h
              exact ih h (fun heq => by simp at heq)
          | none =>
              rw [hla] at h
              match error with
              | none => exact ih h (fun heq => by simp at heq)
              | some err => simp at h
      | .startSpecific action_id step_id error_opt =>
          rw [advanceAux_startSpecific] at h
          match hr : (sess.call_action action_id step_id).2 with
          | .error e => rw [hr] at h; simp at h
          | .ok (.startWith val) =>
              rw [hr] at h
              exact ih h (fun heq => by simp at heq)
          | .ok (.finished sd) =>
              rw [hr] at h
              exact ih h (fun heq => by simp at heq)
          | .ok .cannotFulfill =>
              rw [hr] at h
              exact ih h (fun heq => by simp at heq)
      | .startGeneric action_id step_id error_opt =>
          rw [advanceAux_startGeneric] at h
          match hr : (sess.call_action action_id step_id).2 with
          | .error e => rw [hr] at h; simp at h
          | .ok (.startWith val) =>
              rw [hr] at h
              exact ih h (fun heq => by simp at heq)
          | .ok (.finished sd) =>
              rw [hr] at h
              exact ih h (fun heq => by simp at heq)
          | .ok .cannotFulfill =>
              rw [hr] at h
              exact ih h (fun heq => by simp at heq)

/-- With the cursor at `Done`, `advance(None)` reports `FinishedAdvancing`
and changes nothing. -/
theorem advance_done_finished (f : Nat) (sess : Session)
    (hdir : sess.step_id_dfs.next_direction = .Done) (hf : 2 ≤ f) :
    Session.advance f sess none = some (.ok .finishedAdvancing, sess) := by
  obtain ⟨m, rfl⟩ : ∃ m, f = m + 2 := ⟨f - 2, by omega⟩
  have hnext := dfs_done_stays_done (m + 2) sess.step_id_dfs
    (Session.enterGate sess.step_store sess.state_data)
    (Session.exitGate sess.step_store sess.state_data) sess.step_store hdir
    (by omega)
  simp only [Session.advance, Session.advanceAux, Session.try_enter_next_step,
    Session.try_enter_checked, Session.try_enter_go, hnext]
  rfl

/-- C8: once `advance` has returned "finished advancing", every further
`advance(None)` call returns "finished advancing" again, without error and
without changing the session; equivalently, at cursor level, a `Done`
traversal stays `Done`: `next()` keeps returning "no more steps" without
error. -/
theorem finished_advancing_idempotent :
    (∀ (fuel : Nat) (sess s' : Session) (out : Option (StepId × StateData)),
      Session.advance fuel sess out = some (.ok .finishedAdvancing, s') →
      ∀ f', 2 ≤ f' → Session.advance f' s' none = some (.ok .finishedAdvancing, s')) ∧
    (∀ (f : Nat) (dfs : DepthFirstSearch)
       (canEnter canExit : StepId → Except SError Unit)
       (store : ObjectStore Step StepId),
      dfs.next_direction = .Done → 1 ≤ f →
      dfs.next f canEnter canExit store = some (dfs, .ok none)) := by
  constructor
  · intro fuel sess s' out h f' hf'
    unfold Session.advance at h
    cases haux : Session.advanceAux fuel fuel .advanceStep sess out [] with
    | none => rw [haux] at h; simp at h
    | some p =>
        obtain ⟨r, s2, tr⟩ := p
        rw [haux] at h
        simp at h
        obtain ⟨hr, hs⟩ := h
        subst hr
        subst hs
        exact advance_done_finished f' s2
          (advanceAux_finished_done haux (fun heq => by simp at heq)) hf'
  · exact fun f dfs ce cx store hdir hf => dfs_done_stays_done f dfs ce cx store hdir hf

/-- Witness for C8: the empty session finishes on the first call, and the
theorem then pins every later `advance(None)` to "finished advancing" with
the session unchanged; similarly for the cursor-level conjunct. -/
theorem finished_advancing_idempotent_witness :
    Session.advance 2 { Session.new ⟨0⟩ with step_id_dfs := ⟨[], .Done⟩ } none =
      some (.ok .finishedAdvancing, { Session.new ⟨0⟩ with step_id_dfs := ⟨[], .Done⟩ }) :=
  finished_advancing_idempotent.1 10 (Session.new ⟨0⟩)
    { Session.new ⟨0⟩ with step_id_dfs := ⟨[], .Done⟩ } none rfl 2 (by omega)

/-! ## C7 — specific actions run before the generic one -/

/-- `call_action` touches nothing in the session but the action store. -/
theorem call_action_session_shape (sess : Session) (a : ActionId) (s : StepId) :
    ∃ store, (Session.call_action sess a s).1 = { sess with action_store := store } := by
  unfold Session.call_action
  split
  · exact ⟨sess.action_store, rfl⟩
  · split
    · exact ⟨sess.action_store, rfl⟩
    · dsimp only
      split
      · exact ⟨_, rfl⟩
      · split
        · split
          · exact ⟨_, rfl⟩
          · exact ⟨_, rfl⟩
        · exact ⟨_, rfl⟩

theorem call_action_actions (sess : Session) (a : ActionId) (s : StepId) :
    (Session.call_action sess a s).1.actions = sess.actions := by
  obtain ⟨store, hs⟩ := call_action_session_shape sess a s
  rw [hs]

theorem call_action_state_data (sess : Session) (a : ActionId) (s : StepId) :
    (Session.call_action sess a s).1.state_data = sess.state_data := by
  obtain ⟨store, hs⟩ := call_action_session_shape sess a s
  rw [hs]

theorem call_action_step_id_all (sess : Session) (a : ActionId) (s : StepId) :
    (Session.call_action sess a s).1.step_id_all = sess.step_id_all := by
  obtain ⟨store, hs⟩ := call_action_session_shape sess a s
  rw [hs]

/-- The check-and-merge prologue only ever rewrites the state data. -/
theorem try_enter_checked_shape {sess sess2 : Session}
    {out : Option (StepId × StateData)}
    (h : Session.try_enter_checked sess out = .inl sess2) :
    ∃ sd, sess2 = { sess with state_data := sd } := by
  unfold Session.try_enter_checked at h
  split at h
  · simp at h
    exact ⟨sess.state_data, h.symm⟩
  · split at h
    · simp at h
    · split at h
      · simp at h
      · simp at h
        exact ⟨_, h.symm⟩

/-- `try_enter_next_step` only ever rewrites the state data (merge of the
supplied output) and the cursor. -/
theorem try_enter_shape {dfsFuel : Nat} {sess sess' : Session}
    {out : Option (StepId × StateData)} {res : Except SError (Option StepId)}
    (h : Session.try_enter_next_step dfsFuel sess out = some (sess', res)) :
    ∃ sd dfs, sess' = { sess with state_data := sd, step_id_dfs := dfs } := by
  unfold Session.try_enter_next_step at h
  cases hc : Session.try_enter_checked sess out with
  | inr e =>
      rw [hc] at h
      simp at h
      exact ⟨sess.state_data, sess.step_id_dfs, h.1.symm⟩
  | inl sess2 =>
      rw [hc] at h
      dsimp only at h
      obtain ⟨sd, hshape⟩ := try_enter_checked_shape hc
      unfold Session.try_enter_go at h
      split at h
      · simp at h
      · rename_i dfsv resv heq
        simp at h
        refine ⟨sd, dfsv, ?_⟩
        rw [← h.1, hshape]

/-- `try_enter_next_step` touches neither the actions map nor the sentinel. -/
theorem try_enter_actions {dfsFuel : Nat} {sess sess' : Session}
    {out : Option (StepId × StateData)} {res : Except SError (Option StepId)}
    (h : Session.try_enter_next_step dfsFuel sess out = some (sess', res)) :
    sess'.actions = sess.actions ∧ sess'.step_id_all = sess.step_id_all := by
  obtain ⟨sd, dfs, hs⟩ := try_enter_shape h
  rw [hs]
  exact ⟨rfl, rfl⟩

/-- The last trace entry is a specific invocation of `s` that answered
`CannotFulfill`. -/
def LastSpecCF (tr : List Session.TraceEntry) (s : StepId) : Prop :=
  tr ≠ [] ∧ ∃ e, tr.get? (tr.length - 1) = some e ∧ e.specific = true ∧
    e.step = s ∧ e.result = .ok .cannotFulfill

/-- Invariant tied to the advance machine's state: a generic-action state is
only ever entered for a step with no specific action, or right after that
step's specific action answered `CannotFulfill`. -/
def GenOkState (actions : List (StepId × ActionId)) (st : Session.AdvState)
    (tr : List Session.TraceEntry) : Prop :=
  match st with
  | .getGenericAction s _ => lookupKV actions s = none ∨ LastSpecCF tr s
  | .startGeneric _ s _ => lookupKV actions s = none ∨ LastSpecCF tr s
  | _ => True

theorem specificFirst_nil (A : List (StepId × ActionId)) : SpecificFirst A [] := by
  intro i e h
  simp at h

theorem specificFirst_append_specific {A : List (StepId × ActionId)}
    {tr : List Session.TraceEntry} {e : Session.TraceEntry}
    (h : SpecificFirst A tr) (hspec : e.specific = true) :
    SpecificFirst A (tr ++ [e]) := by
  intro i e' hget hgen
  by_cases hi : i < tr.length
  · rw [List.get?_append hi] at hget
    rcases h i e' hget hgen with hl | ⟨j, e2, hj, hget2, h2⟩
    · exact .inl hl
    · refine .inr ⟨j, e2, hj, ?_, h2⟩
      have hj' : j < tr.length := by
        have := List.get?_eq_some.mp hget2
        omega
      rw [List.get?_append hj']
      exact hget2
  · by_cases hieq : i = tr.length
    · subst hieq
      rw [List.get?_concat_length] at hget
      simp at hget
      subst hget
      rw [hspec] at hgen
      simp at hgen
    · have : (tr ++ [e]).length ≤ i := by simp; omega
      rw [List.get?_eq_none.mpr this] at hget
      simp at hget

theorem specificFirst_append_generic {A : List (StepId × ActionId)}
    {tr : List Session.TraceEntry} {e : Session.TraceEntry}
    (h : SpecificFirst A tr) (hspec : e.specific = false)
    (hok : lookupKV A e.step = none ∨ LastSpecCF tr e.step) :
    SpecificFirst A (tr ++ [e]) := by
  intro i e' hget hgen
  by_cases hi : i < tr.length
  · rw [List.get?_append hi] at hget
    rcases h i e' hget hgen with hl | ⟨j, e2, hj, hget2, h2⟩
    · exact .inl hl
    · refine .inr ⟨j, e2, hj, ?_, h2⟩
      have hj' : j < tr.length := by
        have := List.get?_eq_some.mp hget2
        omega
      rw [List.get?_append hj']
      exact hget2
  · by_cases hieq : i = tr.length
    · subst hieq
      rw [List.get?_concat_length] at hget
      simp at hget
      subst hget
      rcases hok with hl | ⟨hne, e2, hget2, h2⟩
      · exact .inl hl
      · have hlen : 1 ≤ tr.length := by
          cases tr with
          | nil => simp at hne
          | cons a l => simp
        refine .inr ⟨tr.length - 1, e2, by omega, ?_, h2.1, h2.2.1, h2.2.2⟩
        rw [List.get?_append (by omega)]
        exact hget2
    · have : (tr ++ [e]).length ≤ i := by simp; omega
      rw [List.get?_eq_none.mpr this] at hget
      simp at hget

/-- The core invariant run for C7: any `advanceAux` run that starts with a
good trace and a good state ends with a trace in which generic invocations
only follow a specific `CannotFulfill` (or serve a step with no specific
action registered). -/
theorem advanceAux_specificFirst {dfsFuel : Nat} {A : List (StepId × ActionId)} :
    ∀ {fuel : Nat} {st : Session.AdvState} {sess : Session}
      {out : Option (StepId × StateData)} {tr tr' : List Session.TraceEntry}
      {r : Except SError AdvanceBlockedOn} {s' : Session},
    Session.advanceAux dfsFuel fuel st sess out tr = some (r, s', tr') →
    sess.actions = A →
    SpecificFirst A tr →
    GenOkState A st tr →
    SpecificFirst A tr' := by
  intro fuel
  induction fuel with
  | zero => intro st sess out tr tr' r s' h _ _ _; simp [advanceAux_zero] at h
  | succ n ih =>
      intro st sess out tr tr' r s' h hA htr hst
      match st with
      | .done result =>
          rw [advanceAux_done] at h
          simp at h
          rw [← h.2.2]
          exact htr
      | .advanceStep =>
          rw [advanceAux_advanceStep] at h
          cases hte : Session.try_enter_next_step dfsFuel sess out with
          | none => rw [hte] at h; simp at h
          | some p =>
              obtain ⟨sess2, res⟩ := p
              have hA2 : sess2.actions = A := (try_enter_actions hte).1.trans hA
              rw [hte] at h
              match res with
              | .ok (some step_id) => exact ih h hA2 htr trivial
              | .ok none => exact ih h hA2 htr trivial
              | .error err =>
                  dsimp only at h
                  cases hcs : sess2.current_step with
                  | error e =>
                      rw [hcs] at h; simp at h
                      rw [← h.2.2]
                      exact htr
                  | ok step_id =>
                      rw [hcs] at h
                      exact ih h hA2 htr trivial
      | .getSpecificAction step_id error =>
          rw [advanceAux_getSpecific] at h
          cases hla : lookupKV sess.actions step_id with
          | some action_id =>
              rw [hla] at h
              exact ih h hA htr trivial
          | none =>
              rw [hla] at h
              refine ih h hA htr ?_
              exact .inl (hA ▸ hla)
      | .getGenericAction step_id error =>
          rw [advanceAux_getGeneric] at h
          cases hla : lookupKV sess.actions sess.step_id_all with
          | some action_id =>
              rw [hla] at h
              exact ih h hA htr hst
          | none =>
              rw [hla] at h
              match error with
              | none => exact ih h hA htr trivial
              | some err =>
                  simp at h
                  rw [← h.2.2]
                  exact htr
      | .startSpecific action_id step_id error_opt =>
          rw [advanceAux_startSpecific] at h
          have hA1 : (Session.call_action sess action_id step_id).1.actions = A :=
            (call_action_actions sess action_id step_id).trans hA
          match hr : (sess.call_action action_id step_id).2 with
          | .error e =>
              rw [hr] at h
              simp at h
              rw [← h.2.2]
              exact specificFirst_append_specific htr rfl
          | .ok (.startWith val) =>
              rw [hr] at h
              exact ih h hA1 (specificFirst_append_specific htr rfl) trivial
          | .ok (.finished sd) =>
              rw [hr] at h
              exact ih h hA1 (specificFirst_append_specific htr rfl) trivial
          | .ok .cannotFulfill =>
              rw [hr] at h
              refine ih h hA1 (specificFirst_append_specific htr rfl) ?_
              refine .inr ⟨by simp, ⟨true, action_id, step_id, .ok .cannotFulfill⟩,
                ?_, rfl, rfl, rfl⟩
              have hlen : (tr ++ [(⟨true, action_id, step_id,
                  .ok .cannotFulfill⟩ : Session.TraceEntry)]).length - 1 =
                  tr.length := by simp
              rw [hlen]
              exact List.get?_concat_length _ _
      | .startGeneric action_id step_id error_opt =>
          rw [advanceAux_startGeneric] at h
          have hA1 : (Session.call_action sess action_id step_id).1.actions = A :=
            (call_action_actions sess action_id step_id).trans hA
          match hr : (sess.call_action action_id step_id).2 with
          | .error e =>
              rw [hr] at h
              simp at h
              rw [← h.2.2]
              exact specificFirst_append_generic htr rfl hst
          | .ok (.startWith val) =>
              rw [hr] at h
              exact ih h hA1 (specificFirst_append_generic htr rfl hst) trivial
          | .ok (.finished sd) =>
              rw [hr] at h
              exact ih h hA1 (specificFirst_append_generic htr rfl hst) trivial
          | .ok .cannotFulfill =>
              rw [hr] at h
              exact ih h hA1 (specificFirst_append_generic htr rfl hst) trivial

/-- C7: in every `advance` call, the generic (sentinel) action is invoked for
a step only if that step has no specific action registered, or immediately
after the step's specific action was invoked and returned `CannotFulfill` —
in particular, when a step has both actions, the specific one is invoked
before the generic one. -/
theorem advance_specific_before_generic (dfsFuel fuel : Nat) (sess : Session)
    (out : Option (StepId × StateData)) (r : Except SError AdvanceBlockedOn)
    (s' : Session) (tr' : List Session.TraceEntry)
    (h : Session.advanceAux dfsFuel fuel .advanceStep sess out [] = some (r, s', tr')) :
    SpecificFirst sess.actions tr' :=
  advanceAux_specificFirst h rfl (specificFirst_nil _) trivial

/-- Witness for C7: on `sessC7` (step 10 with a `CannotFulfill` specific
action and a blocking generic one) the produced trace satisfies the
specific-before-generic contract. -/
theorem advance_specific_before_generic_witness :
    SpecificFirst sessC7.actions
      [⟨true, ⟨0⟩, ⟨10⟩, .ok .cannotFulfill⟩,
       ⟨false, ⟨1⟩, ⟨10⟩, .ok (.startWith (.boolV true))⟩] :=
  advance_specific_before_generic 30 30 sessC7 none _ _ _ rfl

/-! ## C2 — what e-mail construction actually validates -/

theorem valid_local_ne_dot {c : Char}
    (h : is_valid_email_local_part_char c = true) : c ≠ '.' := by
  intro heq
  subst heq
  exact absurd h (by decide)

theorem valid_local_ne_at {c : Char}
    (h : is_valid_email_local_part_char c = true) : c ≠ '@' := by
  intro heq
  subst heq
  exact absurd h (by decide)

theorem ws_char_cases {c : Char} (h : rust_char_is_whitespace c = true) :
    c = ' ' ∨ c = '\t' ∨ c = '\r' ∨ c = '\n' ∨ c = Char.ofNat 11 ∨ c = Char.ofNat 12 := by
  simp [rust_char_is_whitespace, Char.isWhitespace] at h
  tauto

theorem ws_not_localOrDot {c : Char} (h : rust_char_is_whitespace c = true) :
    ¬ localOrDot c := by
  rcases ws_char_cases h with h1 | h1 | h1 | h1 | h1 | h1 <;> subst h1 <;> decide

theorem ws_ne_at {c : Char} (h : rust_char_is_whitespace c = true) : c ≠ '@' := by
  rcases ws_char_cases h with h1 | h1 | h1 | h1 | h1 | h1 <;> subst h1 <;> decide

theorem no_double_dot_cons_cons (a b : Char) (t : List Char) :
    no_double_dot (a :: b :: t) = (!(a == '.' && b == '.') && no_double_dot (b :: t)) := rfl

theorem no_double_dot_concat (l : List Char) (c : Char) :
    no_double_dot (l ++ [c]) = true ↔
      no_double_dot l = true ∧ ¬ (l.getLast? = some '.' ∧ c = '.') := by
  induction l with
  | nil => simp [no_double_dot]
  | cons a t ih =>
      cases t with
      | nil =>
          by_cases ha : a = '.' <;> by_cases hc : c = '.' <;>
            simp [no_double_dot, ha, hc]
      | cons b t2 =>
          rw [show (a :: b :: t2) ++ [c] = a :: b :: (t2 ++ [c]) by simp]
          rw [no_double_dot_cons_cons, no_double_dot_cons_cons]
          simp only [Bool.and_eq_true]
          have ih' : no_double_dot (b :: (t2 ++ [c])) = true ↔
              no_double_dot (b :: t2) = true ∧
                ¬ ((b :: t2).getLast? = some '.' ∧ c = '.') := by
            simpa using ih
          rw [ih']
          rw [show (a :: b :: t2).getLast? = (b :: t2).getLast? by simp]
          tauto

theorem no_double_dot_prefix (l1 l2 : List Char)
    (h : no_double_dot (l1 ++ l2) = true) : no_double_dot l1 = true := by
  induction l1 with
  | nil => rfl
  | cons a t ih =>
      cases t with
      | nil => rfl
      | cons b t2 =>
          rw [show (a :: b :: t2) ++ l2 = a :: b :: (t2 ++ l2) by simp,
            no_double_dot_cons_cons] at h
          rw [no_double_dot_cons_cons]
          simp only [Bool.and_eq_true] at h ⊢
          refine ⟨h.1, ?_⟩
          have := ih (by simpa using h.2)
          simpa using this

/-! Definitional equations for `extractLoginLoop`, one per state. -/

theorem extractLoginLoop_nil (input : List Char) (er : Nat) (st : ExtractState)
    (login : List Char) :
    extractLoginLoop input [] er st login =
      if login.isEmpty then none else some login := rfl

theorem extractLoginLoop_cons_A (input : List Char) (c : Char) (rest : List Char)
    (er : Nat) (login : List Char) :
    extractLoginLoop input (c :: rest) er .LoginAnyLocalPartChar login =
      (if rust_char_is_whitespace c then none
       else if is_valid_email_local_part_char c then
         extractLoginLoop input rest (er + 1) .LoginAnyLocalPartCharAndDot login
       else if (ExtractState.LoginAnyLocalPartChar = ExtractState.LoginAnyLocalPartCharAndDot ∧ c = '.') then
         extractLoginLoop input rest (er + 1) .LoginAnyLocalPartChar login
       else if c = '@' then
         match (input.take (er + 1 - 1)).getLast? with
         | none => none
         | some last =>
             if last = '.' then none
             else extractLoginLoop input rest (er + 1) .Domain (input.take (er + 1 - 1))
       else none) := rfl

theorem extractLoginLoop_cons_B (input : List Char) (c : Char) (rest : List Char)
    (er : Nat) (login : List Char) :
    extractLoginLoop input (c :: rest) er .LoginAnyLocalPartCharAndDot login =
      (if rust_char_is_whitespace c then none
       else if is_valid_email_local_part_char c then
         extractLoginLoop input rest (er + 1) .LoginAnyLocalPartCharAndDot login
       else if (ExtractState.LoginAnyLocalPartCharAndDot = ExtractState.LoginAnyLocalPartCharAndDot ∧ c = '.') then
         extractLoginLoop input rest (er + 1) .LoginAnyLocalPartChar login
       else if c = '@' then
         match (input.take (er + 1 - 1)).getLast? with
         | none => none
         | some last =>
             if last = '.' then none
             else extractLoginLoop input rest (er + 1) .Domain (input.take (er + 1 - 1))
       else none) := rfl

theorem extractLoginLoop_cons_domain (input : List Char) (c : Char) (rest : List Char)
    (er : Nat) (login : List Char) :
    extractLoginLoop input (c :: rest) er .Domain login =
      (if rust_char_is_whitespace c then none
       else if c = '@' then none
       else extractLoginLoop input rest (er + 1) .Domain login) := rfl

/-- The domain phase of `extract_login`: once past the `@` with a non-empty
login, the loop succeeds exactly when the remaining characters contain no
whitespace and no further `@`. -/
theorem extractLoginLoop_domain (input login : List Char) (hlogin : login ≠ []) :
    ∀ (rest : List Char) (er : Nat),
    (extractLoginLoop input rest er .Domain login).isSome = true ↔ DomainOk rest := by
  intro rest
  induction rest with
  | nil =>
      intro er
      rw [extractLoginLoop_nil]
      simp [List.isEmpty_iff, hlogin, DomainOk]
  | cons c r ih =>
      intro er
      rw [extractLoginLoop_cons_domain]
      by_cases hws : rust_char_is_whitespace c = true
      · rw [if_pos hws]
        simp only [Option.isSome_none, Bool.false_eq_true, false_iff]
        intro h
        have h2 := (h c (by simp)).1
        rw [hws] at h2
        exact Bool.noConfusion h2
      · rw [if_neg hws]
        have hws' : rust_char_is_whitespace c = false := by simpa using hws
        by_cases hat : c = '@'
        · rw [if_pos hat]
          simp only [Option.isSome_none, Bool.false_eq_true, false_iff]
          intro h
          exact (h c (by simp)).2 hat
        · rw [if_neg hat]
          rw [ih (er + 1)]
          unfold DomainOk
          simp [hws', hat]

/-- The local-part phase of `extract_login`: with a well-formed consumed
prefix, the loop accepts exactly the inputs whose remaining characters
consist of a valid local-part continuation, an `@`, and a clean domain. -/
theorem extractLoginLoop_local :
    ∀ (rest consumed : List Char) (st : ExtractState),
    (st = .LoginAnyLocalPartChar ∨ st = .LoginAnyLocalPartCharAndDot) →
    (∀ c ∈ consumed, localOrDot c) →
    consumed.head? ≠ some '.' →
    no_double_dot consumed = true →
    (st = .LoginAnyLocalPartChar → (consumed = [] ∨ consumed.getLast? = some '.')) →
    (st = .LoginAnyLocalPartCharAndDot →
      ∃ c, consumed.getLast? = some c ∧ is_valid_email_local_part_char c = true) →
    ((extractLoginLoop (consumed ++ rest) rest consumed.length st []).isSome = true ↔
      ((rest.contains '@') = true ∧
        LoginOk (consumed ++ rest.takeWhile fun c => c ≠ '@') ∧
        DomainOk ((rest.dropWhile fun c => c ≠ '@').tail))) := by
  intro rest
  induction rest with
  | nil =>
      intro consumed st hst hchars hhead hnd hA hB
      rw [extractLoginLoop_nil]
      simp
  | cons c r ih =>
      intro consumed st hst hchars hhead hnd hA hB
      by_cases hws : rust_char_is_whitespace c = true
      · have hres : extractLoginLoop (consumed ++ c :: r) (c :: r) consumed.length st [] = none := by
          rcases hst with h1 | h1 <;> subst h1
          · rw [extractLoginLoop_cons_A, if_pos hws]
          · rw [extractLoginLoop_cons_B, if_pos hws]
        rw [hres]
        simp only [Option.isSome_none, Bool.false_eq_true, false_iff]
        intro ⟨hcont, hlogin, hdom⟩
        have hcat : c ≠ '@' := ws_ne_at hws
        rw [List.takeWhile_cons_of_pos (by simp [hcat])] at hlogin
        exact absurd (hlogin.2.1 c (by simp)) (ws_not_localOrDot hws)
      · -- the step taken in states A and B for a valid local-part character
        by_cases hv : is_valid_email_local_part_char c = true
        · have hcdot : c ≠ '.' := valid_local_ne_dot hv
          have hcat : c ≠ '@' := valid_local_ne_at hv
          have hres : extractLoginLoop (consumed ++ c :: r) (c :: r) consumed.length st [] =
              extractLoginLoop (consumed ++ c :: r) r (consumed.length + 1)
                .LoginAnyLocalPartCharAndDot [] := by
            rcases hst with h1 | h1 <;> subst h1
            · rw [extractLoginLoop_cons_A, if_neg hws, if_pos hv]
            · rw [extractLoginLoop_cons_B, if_neg hws, if_pos hv]
          rw [hres]
          rw [show consumed ++ c :: r = (consumed ++ [c]) ++ r by simp,
            show consumed.length + 1 = (consumed ++ [c]).length by simp]
          rw [ih (consumed ++ [c]) .LoginAnyLocalPartCharAndDot (.inr rfl)
            (by intro x hx
                rcases List.mem_append.mp hx with hx | hx
                · exact hchars x hx
                · simp at hx; subst hx; exact .inl hv)
            (by cases consumed with
                | nil => simpa using hcdot
                | cons a t => simpa using hhead)
            ((no_double_dot_concat consumed c).mpr ⟨hnd, fun h => hcdot h.2⟩)
            (by intro h; exact absurd h (by simp))
            (by intro _; exact ⟨c, List.getLast?_concat _, hv⟩)]
          rw [List.takeWhile_cons_of_pos (by simp [hcat]),
            List.dropWhile_cons_of_pos (by simp [hcat])]
          simp only [List.contains_cons, List.append_assoc, List.cons_append,
            List.singleton_append]
          constructor
          · intro ⟨h1, h2, h3⟩
            exact ⟨by rw [h1, Bool.or_true], h2, h3⟩
          · intro ⟨h1, h2, h3⟩
            refine ⟨?_, h2, h3⟩
            rcases (by simpa using h1 : '@' = c ∨ '@' ∈ r) with h | h
            · exact absurd h.symm hcat
            · simpa using h
        · by_cases hcdot : c = '.'
          · subst hcdot
            rcases hst with h1 | h1 <;> subst h1
            · -- a dot in state A: reject, and the spec side fails too
              have hres : extractLoginLoop (consumed ++ '.' :: r) ('.' :: r) consumed.length
                  .LoginAnyLocalPartChar [] = none := by
                rw [extractLoginLoop_cons_A, if_neg hws, if_neg hv,
                  if_neg (by intro h; exact absurd h.1 (by simp)), if_neg (by decide)]
              rw [hres]
              simp only [Option.isSome_none, Bool.false_eq_true, false_iff]
              intro ⟨hcont, hlogin, hdom⟩
              rw [List.takeWhile_cons_of_pos (by decide)] at hlogin
              rcases hA rfl with hnil | hdot
              · subst hnil
                exact hlogin.2.2.1 (by simp)
              · have hnd2 := hlogin.2.2.2.2
                rw [show consumed ++ '.' :: List.takeWhile (fun c => decide (c ≠ '@')) r =
                    (consumed ++ ['.']) ++ List.takeWhile (fun c => decide (c ≠ '@')) r
                  by simp] at hnd2
                have key := no_double_dot_prefix _ _ hnd2
                rcases (no_double_dot_concat consumed '.').mp key with ⟨_, hcontra⟩
                exact hcontra ⟨hdot, rfl⟩
            · -- a dot in state B: consume it and continue in state A
              obtain ⟨lc, hlast, hlcv⟩ := hB rfl
              have hlcdot : lc ≠ '.' := valid_local_ne_dot hlcv
              have hres : extractLoginLoop (consumed ++ '.' :: r) ('.' :: r) consumed.length
                  .LoginAnyLocalPartCharAndDot [] =
                  extractLoginLoop (consumed ++ '.' :: r) r (consumed.length + 1)
                    .LoginAnyLocalPartChar [] := by
                rw [extractLoginLoop_cons_B, if_neg hws, if_neg hv, if_pos ⟨rfl, rfl⟩]
              rw [hres]
              rw [show consumed ++ '.' :: r = (consumed ++ ['.']) ++ r by simp,
                show consumed.length + 1 = (consumed ++ ['.']).length by simp]
              rw [ih (consumed ++ ['.']) .LoginAnyLocalPartChar (.inl rfl)
                (by intro x hx
                    rcases List.mem_append.mp hx with hx | hx
                    · exact hchars x hx
                    · simp at hx; subst hx; exact .inr rfl)
                (by cases consumed with
                    | nil => simp at hlast
                    | cons a t => simpa using hhead)
                ((no_double_dot_concat consumed '.').mpr
                  ⟨hnd, fun h => hlcdot (by rw [hlast] at h; exact (Option.some_inj.mp h.1))⟩)
                (by intro _; exact .inr (List.getLast?_concat _))
                (by intro h; exact absurd h (by simp))]
              rw [List.takeWhile_cons_of_pos (by decide),
                List.dropWhile_cons_of_pos (by decide)]
              simp [List.append_assoc]
          · by_cases hcat : c = '@'
            · subst hcat
              -- the `@` transition: the login becomes the consumed prefix
              have htake : (consumed ++ '@' :: r).take (consumed.length + 1 - 1) = consumed := by
                rw [Nat.add_sub_cancel]
                exact List.take_left consumed ('@' :: r)
              have hres : extractLoginLoop (consumed ++ '@' :: r) ('@' :: r) consumed.length st [] =
                  (match consumed.getLast? with
                   | none => none
                   | some last =>
                       if last = '.' then none
                       else extractLoginLoop (consumed ++ '@' :: r) r (consumed.length + 1)
                         .Domain consumed) := by
                rcases hst with h1 | h1 <;> subst h1
                · rw [extractLoginLoop_cons_A, if_neg hws, if_neg hv,
                    if_neg (by intro h; exact absurd h.1 (by simp)), if_pos rfl, htake]
                · rw [extractLoginLoop_cons_B, if_neg hws, if_neg hv,
                    if_neg (by intro h; exact absurd h.2 (by decide)), if_pos rfl, htake]
              rw [hres]
              rw [List.takeWhile_cons_of_neg (by simp),
                List.dropWhile_cons_of_neg (by simp)]
              simp only [List.append_nil, List.tail_cons, List.contains_cons]
              cases hlast : consumed.getLast? with
              | none =>
                  dsimp only
                  have hnil : consumed = [] := by
                    cases consumed with
                    | nil => rfl
                    | cons a t => simp at hlast
                  subst hnil
                  simp [LoginOk]
              | some lc =>
                  dsimp only
                  have hconsne : consumed ≠ [] := by
                    intro h; subst h; simp at hlast
                  by_cases hlcdot : lc = '.'
                  · subst hlcdot
                    rw [if_pos rfl]
                    simp only [Option.isSome_none, Bool.false_eq_true, false_iff]
                    intro ⟨_, hlogin, _⟩
                    exact hlogin.2.2.2.1 hlast
                  · rw [if_neg hlcdot]
                    rw [extractLoginLoop_domain _ consumed hconsne r (consumed.length + 1)]
                    constructor
                    · intro hdom
                      refine ⟨by simp, ⟨hconsne, hchars, hhead, ?_, hnd⟩, hdom⟩
                      rw [hlast]
                      simpa using hlcdot
                    · intro ⟨_, _, hdom⟩
                      exact hdom
            · -- an invalid character: reject; the spec side fails on it too
              have hres : extractLoginLoop (consumed ++ c :: r) (c :: r) consumed.length st [] = none := by
                rcases hst with h1 | h1 <;> subst h1
                · rw [extractLoginLoop_cons_A, if_neg hws, if_neg hv,
                    if_neg (by intro h; exact absurd h.1 (by simp)), if_neg hcat]
                · rw [extractLoginLoop_cons_B, if_neg hws, if_neg hv,
                    if_neg (by intro h; exact absurd h.2 hcdot), if_neg hcat]
              rw [hres]
              simp only [Option.isSome_none, Bool.false_eq_true, false_iff]
              intro ⟨hcont, hlogin, hdom⟩
              rw [List.takeWhile_cons_of_pos (by simp [hcat])] at hlogin
              rcases hlogin.2.1 c (by simp) with h | h
              · exact hv h
              · exact hcdot h

theorem string_isEmpty_toList {s : String} (h : s.isEmpty = true) : s.toList = [] := by
  cases s with
  | mk data =>
      cases data with
      | nil => rfl
      | cons a t =>
          simp [String.isEmpty, String.endPos, String.utf8ByteSize] at h
          have h2 : String.utf8Len t + a.utf8Size = 0 := congrArg String.Pos.byteIdx h
          have h3 := Char.utf8Size_pos a
          omega

/-- `extract_login` succeeds exactly on inputs of the shape
`local-part ++ '@' ++ domain` with a well-formed non-empty local part and a
whitespace-free, `@`-free (possibly empty, possibly undotted) domain. -/
theorem extract_login_iff (input : List Char) :
    (extract_login input).isSome = true ↔
      (input.contains '@' = true ∧
        LoginOk (input.takeWhile fun c => c ≠ '@') ∧
        DomainOk ((input.dropWhile fun c => c ≠ '@').tail)) := by
  have h := extractLoginLoop_local input [] .LoginAnyLocalPartChar (.inl rfl)
    (by intro c hc; simp at hc) (by simp) rfl (fun _ => .inl rfl)
    (fun h => absurd h (by simp))
  simpa [extract_login] using h

theorem email_try_new_isOk {s : String} :
    (EmailValue.try_new s).isOk = true ↔ EmailValue.validate s = .ok () := by
  unfold EmailValue.try_new
  cases hv : EmailValue.validate s with
  | ok u => cases u; simp [Except.map, Except.isOk, Except.toBool]
  | error e => simp [Except.map, Except.isOk, Except.toBool]

/-- C2 counterexample: `"a@b"` has a non-empty valid local-part but its
domain contains no dot, yet `EmailValue::try_new` accepts it — construction
does not validate the claimed "dotted domain". -/
theorem email_accepts_undotted_domain :
    EmailValue.try_new "a@b" = .ok ⟨"a@b"⟩ ∧ ¬ EmailClaimedSpec "a@b" := by
  constructor
  · rfl
  · unfold EmailClaimedSpec LoginOk DomainOk localOrDot
    decide

/-- C2 amended: for every ASCII string (the domain on which the embedding
of the validator is exact — beyond it Rust's Unicode character classes and
byte-indexed slicing diverge from any character-based model),
`EmailValue::try_new` succeeds iff the string contains an `@`, the part
before the first `@` is a non-empty well-formed local part, and the part
after it has no whitespace and no further `@` — the domain is not otherwise
checked (no dot required). The claimed scenario holds: `"a@b.com"` is
accepted and `"not-an-email"` fails with the bad-format error. -/
theorem email_validation_characterized :
    (∀ s : String, AsciiOnly s →
      ((EmailValue.try_new s).isOk = true ↔ EmailAmendedSpec s)) ∧
    EmailValue.try_new "a@b.com" = .ok ⟨"a@b.com"⟩ ∧
    EmailValue.try_new "not-an-email" = .error .BadFormat := by
  refine ⟨?_, rfl, rfl⟩
  intro s _
  rw [email_try_new_isOk]
  unfold EmailValue.validate EmailAmendedSpec
  by_cases hemp : s.isEmpty = true
  · rw [if_pos hemp, string_isEmpty_toList hemp]
    simp
  · rw [if_neg hemp]
    have key := extract_login_iff s.toList
    by_cases hn : (extract_login s.toList).isNone = true
    · rw [if_pos hn]
      have hns : (extract_login s.toList).isSome = false := by
        cases hx : extract_login s.toList with
        | none => rfl
        | some v => rw [hx] at hn; simp at hn
      rw [hns] at key
      simp only [Bool.false_eq_true, false_iff] at key
      constructor
      · intro h; exact absurd h (by simp)
      · intro h; exact absurd h key
    · rw [if_neg hn]
      have hns : (extract_login s.toList).isSome = true := by
        cases hx : extract_login s.toList with
        | none => rw [hx] at hn; simp at hn
        | some v => rfl
      rw [hns] at key
      simp only [true_iff] at key
      exact ⟨fun _ => key, fun _ => rfl⟩

/-- Witness for C2's amended theorem: the iff applied at the ASCII string
`"a@b.com"`, its ASCII-ness discharged by computation. -/
theorem email_validation_characterized_witness :
    AsciiOnly "a@b.com" ∧
    ((EmailValue.try_new "a@b.com").isOk = true ↔ EmailAmendedSpec "a@b.com") :=
  ⟨by decide, email_validation_characterized.1 "a@b.com" (by decide)⟩

/-! ## C4 — cursor-trace machinery -/

theorem dfsTrace_succ (canEnter canExit : StepId → Except SError Unit)
    (store : ObjectStore Step StepId) (k : Nat) (dir : DFSDirection)
    (stack : List StepId) :
    dfsTrace canEnter canExit store (k + 1) dir stack =
      (match DepthFirstSearch.nextStep canEnter canExit store dir stack with
       | .next dir' stack' => dfsTrace canEnter canExit store k dir' stack'
       | .brk dir' stack' err =>
           ((DepthFirstSearch.obsOf dir' stack' err, stack'.head?) ::
              (dfsTrace canEnter canExit store k dir' stack').1,
            (dfsTrace canEnter canExit store k dir' stack').2)) := rfl

theorem dfsTrace_add (canEnter canExit : StepId → Except SError Unit)
    (store : ObjectStore Step StepId) :
    ∀ (a b : Nat) (dir : DFSDirection) (stack : List StepId),
    dfsTrace canEnter canExit store (a + b) dir stack =
      ((dfsTrace canEnter canExit store a dir stack).1 ++
         (dfsTrace canEnter canExit store b
            (dfsTrace canEnter canExit store a dir stack).2.1
            (dfsTrace canEnter canExit store a dir stack).2.2).1,
       (dfsTrace canEnter canExit store b
          (dfsTrace canEnter canExit store a dir stack).2.1
          (dfsTrace canEnter canExit store a dir stack).2.2).2) := by
  intro a
  induction a with
  | zero =>
      intro b dir stack
      rw [Nat.zero_add]
      simp [dfsTrace]
  | succ n ih =>
      intro b dir stack
      rw [Nat.succ_add]
      rw [dfsTrace_succ canEnter canExit store (n + b),
        dfsTrace_succ canEnter canExit store n]
      cases h : DepthFirstSearch.nextStep canEnter canExit store dir stack with
      | next d' s' =>
          dsimp only
          exact ih b d' s'
      | brk d' s' err =>
          dsimp only
          rw [ih b d' s']
          simp

theorem nextLoop_mono {canEnter canExit : StepId → Except SError Unit}
    {store : ObjectStore Step StepId} :
    ∀ {f : Nat} {dir : DFSDirection} {stack : List StepId}
      {out : DFSDirection × List StepId × Option SError} {g : Nat},
    DepthFirstSearch.nextLoop canEnter canExit store f dir stack = some out →
    f ≤ g →
    DepthFirstSearch.nextLoop canEnter canExit store g dir stack = some out := by
  intro f
  induction f with
  | zero => intro dir stack out g h _; simp [DepthFirstSearch.nextLoop] at h
  | succ n ih =>
      intro dir stack out g h hle
      obtain ⟨m, rfl⟩ : ∃ m, g = m + 1 := ⟨g - 1, by omega⟩
      unfold DepthFirstSearch.nextLoop at h ⊢
      cases hs : DepthFirstSearch.nextStep canEnter canExit store dir stack with
      | next d' s' =>
          rw [hs] at h
          dsimp only at h ⊢
          exact ih h (by omega)
      | brk d' s' err =>
          rw [hs] at h
          dsimp only at h ⊢
          exact h

theorem dfsTrace_first_emit {canEnter canExit : StepId → Except SError Unit}
    {store : ObjectStore Step StepId} :
    ∀ {k : Nat} {dir : DFSDirection} {stack : List StepId}
      {r : Except SError (Option StepId)} {hd : Option StepId}
      {obs : List (Except SError (Option StepId) × Option StepId)}
      {dfin : DFSDirection} {sfin : List StepId},
    dfsTrace canEnter canExit store k dir stack = ((r, hd) :: obs, dfin, sfin) →
    ∃ k1 d1 s1 err, k1 + 1 ≤ k ∧
      DepthFirstSearch.nextLoop canEnter canExit store (k1 + 1) dir stack =
        some (d1, s1, err) ∧
      r = DepthFirstSearch.obsOf d1 s1 err ∧ hd = s1.head? ∧
      dfsTrace canEnter canExit store (k - (k1 + 1)) d1 s1 = (obs, dfin, sfin) := by
  intro k
  induction k with
  | zero => intro dir stack r hd obs dfin sfin h; simp [dfsTrace] at h
  | succ n ih =>
      intro dir stack r hd obs dfin sfin h
      rw [dfsTrace_succ] at h
      cases hs : DepthFirstSearch.nextStep canEnter canExit store dir stack with
      | next d' s' =>
          rw [hs] at h
          dsimp only at h
          obtain ⟨k1, d1, s1, err, hk, hloop, hr, hhd, htr⟩ := ih h
          refine ⟨k1 + 1, d1, s1, err, by omega, ?_, hr, hhd, ?_⟩
          · unfold DepthFirstSearch.nextLoop
            rw [hs]
            exact hloop
          · have heq : n + 1 - (k1 + 1 + 1) = n - (k1 + 1) := by omega
            rw [heq]
            exact htr
      | brk d' s' err =>
          rw [hs] at h
          dsimp only at h
          simp only [Prod.mk.injEq, List.cons.injEq] at h
          obtain ⟨⟨⟨hr, hhd⟩, hL⟩, hP⟩ := h
          refine ⟨0, d', s', err, by omega, ?_, hr.symm, hhd.symm, ?_⟩
          · unfold DepthFirstSearch.nextLoop
            rw [hs]
          · show dfsTrace canEnter canExit store n d' s' = (obs, dfin, sfin)
            rw [← hL, ← hP]

theorem nextCalls_of_trace {canEnter canExit : StepId → Except SError Unit}
    {store : ObjectStore Step StepId} :
    ∀ {n : Nat} {k : Nat} {dir : DFSDirection} {stack : List StepId}
      {obs : List (Except SError (Option StepId) × Option StepId)}
      {dfin : DFSDirection} {sfin : List StepId} {fuel : Nat},
    dfsTrace canEnter canExit store k dir stack = (obs, dfin, sfin) →
    k ≤ fuel → n ≤ obs.length →
    nextCalls canEnter canExit store fuel n dir stack = some (obs.take n) := by
  intro n
  induction n with
  | zero => intro k dir stack obs dfin sfin fuel _ _ _; simp [nextCalls]
  | succ m ih =>
      intro k dir stack obs dfin sfin fuel h hk hn
      match obs with
      | [] => simp at hn
      | (r, hd) :: obs' =>
          obtain ⟨k1, d1, s1, err, hk1, hloop, hr, hhd, htr⟩ := dfsTrace_first_emit h
          have hloop' := nextLoop_mono hloop (by omega : k1 + 1 ≤ fuel)
          unfold nextCalls
          rw [hloop']
          dsimp only
          have hmn : m ≤ obs'.length := by simpa using hn
          rw [ih htr (by omega) hmn]
          subst hr
          subst hhd
          rfl

/-! ## C4 — tree lemmas -/

theorem size_pos (t : ITree) : 1 ≤ t.size := by
  cases t with
  | node i cs =>
      have h : ITree.size (.node i cs) = 1 + forestSize cs := by simp [ITree.size]
      omega

theorem forestSize_cons (t : ITree) (ts : List ITree) :
    forestSize (t :: ts) = t.size + forestSize ts := by
  simp [forestSize]

/-- Mutual structural induction for trees and forests, derived once from a
strong induction on the node count. -/
theorem tree_forest_ind (P : ITree → Prop) (Q : List ITree → Prop)
    (hnode : ∀ i cs, Q cs → P (.node i cs))
    (hnil : Q [])
    (hcons : ∀ t ts, P t → Q ts → Q (t :: ts)) :
    (∀ t, P t) ∧ (∀ ts, Q ts) := by
  have keyT : ∀ N (t : ITree), t.size ≤ N → P t := by
    intro N
    induction N with
    | zero =>
        intro t ht
        have := size_pos t
        omega
    | succ n ih =>
        intro t ht
        obtain ⟨i, cs⟩ := t
        refine hnode i cs ?_
        have hsz : forestSize cs ≤ n := by
          have h1 : ITree.size (ITree.node i cs) = 1 + forestSize cs := by
            simp [ITree.size]
          omega
        clear ht
        revert hsz
        induction cs with
        | nil => intro _; exact hnil
        | cons c cs' ihc =>
            intro hsz
            rw [forestSize_cons] at hsz
            have hc := size_pos c
            exact hcons c cs' (ih c (by omega)) (ihc (by omega))
  have keyQ : ∀ ts, Q ts := by
    intro ts
    induction ts with
    | nil => exact hnil
    | cons t ts' ihq => exact hcons t ts' (keyT t.size t le_rfl) ihq
  exact ⟨fun t => keyT t.size t le_rfl, keyQ⟩

theorem id_node (i : Nat) (cs : List ITree) : (ITree.node i cs).id = i := rfl

theorem ids_node (i : Nat) (cs : List ITree) :
    (ITree.node i cs).ids = i :: forestIds cs := by simp [ITree.ids]

theorem forestIds_cons (t : ITree) (ts : List ITree) :
    forestIds (t :: ts) = t.ids ++ forestIds ts := by simp [forestIds]

theorem forestIds_nil : forestIds [] = [] := by simp [forestIds]

theorem leaves_node_nil (i : Nat) : (ITree.node i []).leaves = [i] := by
  simp [ITree.leaves]

theorem leaves_node_cons (i : Nat) (c : ITree) (cs : List ITree) :
    (ITree.node i (c :: cs)).leaves = forestLeaves (c :: cs) := by
  simp [ITree.leaves]

theorem forestLeaves_cons (t : ITree) (ts : List ITree) :
    forestLeaves (t :: ts) = t.leaves ++ forestLeaves ts := by simp [forestLeaves]

theorem forestLeaves_nil : forestLeaves [] = [] := by simp [forestLeaves]

theorem toEntries_node (i : Nat) (cs : List ITree) :
    (ITree.node i cs).toEntries = (⟨i⟩, stepOfNode i cs) :: forestEntries cs := by
  simp [ITree.toEntries]

theorem forestEntries_cons (t : ITree) (ts : List ITree) :
    forestEntries (t :: ts) = t.toEntries ++ forestEntries ts := by
  simp [forestEntries]

theorem forestEntries_nil : forestEntries [] = [] := by simp [forestEntries]

theorem RepT_node {store : ObjectStore Step StepId} {i : Nat} {cs : List ITree} :
    RepT store (.node i cs) ↔
      store.get ⟨i⟩ = some (stepOfNode i cs) ∧ RepF store cs := by
  simp [RepT]

theorem RepF_cons {store : ObjectStore Step StepId} {t : ITree} {ts : List ITree} :
    RepF store (t :: ts) ↔ RepT store t ∧ RepF store ts := by
  simp [RepF]

theorem id_mem_ids (t : ITree) : t.id ∈ t.ids := by
  cases t with
  | node i cs => rw [ids_node]; exact List.mem_cons_self ..

/-- The scan of `Step::next_substep` on a duplicate-free child list: skip
past `x` and yield the head of what follows. -/
theorem nextAfter_append_cons (x : StepId) :
    ∀ (pre suf : List StepId), x ∉ pre →
    Step.nextAfter x (pre ++ x :: suf) = suf.head? := by
  intro pre
  induction pre with
  | nil => intro suf _; simp [Step.nextAfter]
  | cons a l ih =>
      intro suf hx
      simp only [List.mem_cons, not_or] at hx
      show Step.nextAfter x (a :: (l ++ x :: suf)) = suf.head?
      unfold Step.nextAfter
      rw [if_neg (fun h => hx.1 (by rw [h]))]
      exact ih suf hx.2

/-- The root identities of a forest, in order, form a sublist of the
forest's full identity list. -/
theorem map_id_sublist : ∀ ts : List ITree, List.Sublist (ts.map ITree.id) (forestIds ts) := by
  intro ts
  induction ts with
  | nil => simp [forestIds_nil]
  | cons t ts' ih =>
      rw [forestIds_cons]
      cases t with
      | node i cs =>
          rw [ids_node]
          show List.Sublist (i :: ts'.map ITree.id) ((i :: forestIds cs) ++ forestIds ts')
          rw [List.cons_append]
          exact List.Sublist.cons₂ i (ih.trans (List.sublist_append_right ..))

/-- Every leaf identity is a node identity, for trees and forests. -/
theorem leaves_mem_ids :
    (∀ t : ITree, ∀ x ∈ t.leaves, x ∈ t.ids) ∧
    (∀ ts : List ITree, ∀ x ∈ forestLeaves ts, x ∈ forestIds ts) := by
  refine tree_forest_ind
    (fun t => ∀ x ∈ t.leaves, x ∈ t.ids)
    (fun ts => ∀ x ∈ forestLeaves ts, x ∈ forestIds ts) ?_ ?_ ?_
  · intro i cs hq x hx
    cases cs with
    | nil =>
        rw [leaves_node_nil] at hx
        rw [ids_node]
        simp at hx
        simp [hx]
    | cons c cs' =>
        rw [leaves_node_cons] at hx
        rw [ids_node]
        exact List.mem_cons_of_mem i (hq x hx)
  · intro x hx
    rw [forestLeaves_nil] at hx
    simp at hx
  · intro t ts hp hq x hx
    rw [forestLeaves_cons] at hx
    rw [forestIds_cons]
    rcases List.mem_append.mp hx with h | h
    · exact List.mem_append_left _ (hp x h)
    · exact List.mem_append_right _ (hq x h)

theorem lookupKV_cons {K V : Type} [DecidableEq K] (k0 : K) (v0 : V)
    (rest : List (K × V)) (k : K) :
    lookupKV ((k0, v0) :: rest) k = if k0 = k then some v0 else lookupKV rest k := rfl

theorem lookupKV_append_right {K V : Type} [DecidableEq K] :
    ∀ (A B : List (K × V)) (k : K), (∀ p ∈ A, p.1 ≠ k) →
    lookupKV (A ++ B) k = lookupKV B k := by
  intro A
  induction A with
  | nil => intro B k _; simp
  | cons p A' ih =>
      intro B k h
      obtain ⟨k0, v0⟩ := p
      rw [List.cons_append, lookupKV_cons,
        if_neg (h (k0, v0) (List.mem_cons_self ..))]
      exact ih B k fun q hq => h q (List.mem_cons_of_mem _ hq)

/-- The step-store keys a tree (or forest) contributes are exactly its node
identities. -/
theorem entries_keys :
    (∀ t : ITree, t.toEntries.map Prod.fst = t.ids.map fun x => (⟨x⟩ : StepId)) ∧
    (∀ ts : List ITree,
      (forestEntries ts).map Prod.fst = (forestIds ts).map fun x => (⟨x⟩ : StepId)) := by
  refine tree_forest_ind
    (fun t => t.toEntries.map Prod.fst = t.ids.map fun x => (⟨x⟩ : StepId))
    (fun ts =>
      (forestEntries ts).map Prod.fst = (forestIds ts).map fun x => (⟨x⟩ : StepId))
    ?_ ?_ ?_
  · intro i cs hq
    rw [toEntries_node, ids_node]
    simp [hq]
  · simp [forestEntries_nil, forestIds_nil]
  · intro t ts hp hq
    rw [forestEntries_cons, forestIds_cons]
    simp [hp, hq]

/-- A store whose object list embeds a tree's (or forest's) entries, with no
key collisions to its left, represents the tree. -/
theorem rep_of_entries (nm : List (String × StepId)) (ni : Nat) :
    (∀ t : ITree, ∀ pre post : List (StepId × Step),
      (∀ x ∈ t.ids, (⟨x⟩ : StepId) ∉ pre.map Prod.fst) → t.ids.Nodup →
      RepT ⟨pre ++ t.toEntries ++ post, nm, ni⟩ t) ∧
    (∀ ts : List ITree, ∀ pre post : List (StepId × Step),
      (∀ x ∈ forestIds ts, (⟨x⟩ : StepId) ∉ pre.map Prod.fst) → (forestIds ts).Nodup →
      RepF ⟨pre ++ forestEntries ts ++ post, nm, ni⟩ ts) := by
  refine tree_forest_ind
    (fun t => ∀ pre post : List (StepId × Step),
      (∀ x ∈ t.ids, (⟨x⟩ : StepId) ∉ pre.map Prod.fst) → t.ids.Nodup →
      RepT ⟨pre ++ t.toEntries ++ post, nm, ni⟩ t)
    (fun ts => ∀ pre post : List (StepId × Step),
      (∀ x ∈ forestIds ts, (⟨x⟩ : StepId) ∉ pre.map Prod.fst) → (forestIds ts).Nodup →
      RepF ⟨pre ++ forestEntries ts ++ post, nm, ni⟩ ts)
    ?_ ?_ ?_
  · intro i cs hq pre post hpre hnodup
    rw [ids_node] at hpre hnodup
    rw [RepT_node]
    constructor
    · show lookupKV (pre ++ (ITree.node i cs).toEntries ++ post) ⟨i⟩ =
        some (stepOfNode i cs)
      rw [toEntries_node, List.append_assoc]
      rw [lookupKV_append_right _ _ _
        (fun p hp hk => hpre i (List.mem_cons_self ..)
          (by rw [← hk]; exact List.mem_map_of_mem _ hp))]
      simp [lookupKV]
    · have hrepf := hq (pre ++ [(⟨i⟩, stepOfNode i cs)]) post ?_ ?_
      · have harr : pre ++ [(⟨i⟩, stepOfNode i cs)] ++ forestEntries cs ++ post =
            pre ++ (ITree.node i cs).toEntries ++ post := by
          rw [toEntries_node]
          simp
        rw [harr] at hrepf
        exact hrepf
      · intro x hx
        simp only [List.map_append, List.mem_append, not_or]
        constructor
        · exact hpre x (List.mem_cons_of_mem i hx)
        · simp only [List.map_cons, List.map_nil, List.mem_singleton]
          intro hmk
          have hxi : x = i := congrArg StepId.val hmk
          rw [hxi] at hx
          exact (List.nodup_cons.mp hnodup).1 hx
      · exact (List.nodup_cons.mp hnodup).2
  · intro pre post _ _
    rw [forestEntries_nil]
    simp [RepF]
  · intro t ts hp hq pre post hpre hnodup
    rw [forestIds_cons] at hpre hnodup
    obtain ⟨hnt, hnts, hdisj⟩ := List.nodup_append.mp hnodup
    rw [RepF_cons, forestEntries_cons]
    constructor
    · have := hp pre (forestEntries ts ++ post)
        (fun x hx => hpre x (List.mem_append_left _ hx)) hnt
      simpa [List.append_assoc] using this
    · have := hq (pre ++ t.toEntries) post ?_ hnts
      · simpa [List.append_assoc] using this
      · intro x hx
        simp only [List.map_append, List.mem_append, not_or]
        refine ⟨hpre x (List.mem_append_right _ hx), ?_⟩
        rw [entries_keys.1 t]
        simp only [List.mem_map]
        rintro ⟨y, hy, hmk⟩
        have hxy : y = x := congrArg StepId.val hmk
        rw [hxy] at hy
        exact hdisj hy hx

/-- A step with no required inputs and no declared outputs passes both
session gates under any state data. -/
theorem gates_ok_of_stepOfNode {store : ObjectStore Step StepId}
    {sd : StateData} {x : StepId} {j : Nat} {cs : List ITree}
    (h : store.get x = some (stepOfNode j cs)) :
    Session.enterGate store sd x = .ok () ∧ Session.exitGate store sd x = .ok () := by
  unfold Session.enterGate Session.exitGate
  rw [h]
  simp [stepOfNode, Step.can_enter, Step.can_exit]
  rfl

/-- Under `RepT`/`RepF`, every node identity resolves in the store to a step
of the `stepOfNode` shape. -/
theorem rep_get_stepOfNode (store : ObjectStore Step StepId) :
    (∀ t : ITree, RepT store t →
      ∀ x ∈ t.ids, ∃ cs, store.get ⟨x⟩ = some (stepOfNode x cs)) ∧
    (∀ ts : List ITree, RepF store ts →
      ∀ x ∈ forestIds ts, ∃ cs, store.get ⟨x⟩ = some (stepOfNode x cs)) := by
  refine tree_forest_ind
    (fun t => RepT store t → ∀ x ∈ t.ids, ∃ cs, store.get ⟨x⟩ = some (stepOfNode x cs))
    (fun ts => RepF store ts →
      ∀ x ∈ forestIds ts, ∃ cs, store.get ⟨x⟩ = some (stepOfNode x cs))
    ?_ ?_ ?_
  · intro i cs hq hrep x hx
    rw [RepT_node] at hrep
    rw [ids_node] at hx
    rcases List.mem_cons.mp hx with h | h
    · exact ⟨cs, h ▸ hrep.1⟩
    · exact hq hrep.2 x h
  · intro _ x hx
    rw [forestIds_nil] at hx
    simp at hx
  · intro t ts hp hq hrep x hx
    rw [RepF_cons] at hrep
    rw [forestIds_cons] at hx
    rcases List.mem_append.mp hx with h | h
    · exact hp hrep.1 x h
    · exact hq hrep.2 x h

theorem mk_injective : Function.Injective fun x => (⟨x⟩ : StepId) := by
  intro a b h
  exact congrArg StepId.val h

/-- A duplicate-free forest-identity list makes the root identities, as
`StepId`s, duplicate-free. -/
theorem childIds_nodup {cs : List ITree} (h : (forestIds cs).Nodup) :
    (cs.map fun c => (⟨c.id⟩ : StepId)).Nodup := by
  have h1 : (cs.map ITree.id).Nodup := h.sublist (map_id_sublist cs)
  have h2 := h1.map mk_injective
  rw [List.map_map] at h2
  exact h2

/-- The heart of C4: started `Down` on a child of `p` whose later siblings
are `after`, the cursor loop emits exactly the pre-order leaves of that
child and its following siblings — each as an error-free result naming the
leaf, with the leaf on top of the stack — and ends in `SiblingOrUp` with the
child popped, about to continue from `p`. -/
theorem dfs_forest_trace (canEnter canExit : StepId → Except SError Unit)
    (store : ObjectStore Step StepId) :
    ∀ (N : Nat) (c : ITree) (after : List ITree),
    c.size + forestSize after ≤ N →
    ∀ (p : StepId) (rest : List StepId) (pre : List StepId) (pstep : Step),
    store.get p = some pstep →
    pstep.substep_step_ids =
      some (pre ++ ⟨c.id⟩ :: after.map fun a => (⟨a.id⟩ : StepId)) →
    (pre ++ ⟨c.id⟩ :: after.map fun a => (⟨a.id⟩ : StepId)).Nodup →
    (c.ids ++ forestIds after).Nodup →
    RepT store c → RepF store after →
    (∀ x ∈ c.ids ++ forestIds after, canEnter ⟨x⟩ = .ok () ∧ canExit ⟨x⟩ = .ok ()) →
    ∃ k, dfsTrace canEnter canExit store k .Down (⟨c.id⟩ :: p :: rest) =
      ((c.leaves ++ forestLeaves after).map
          fun l => (.ok (some (⟨l⟩ : StepId)), some (⟨l⟩ : StepId)),
       .SiblingOrUp, p :: rest) := by
  intro N
  induction N with
  | zero =>
      intro c after hN
      have := size_pos c
      omega
  | succ n ih =>
      intro c after hN p rest pre pstep hp hsubs hnodup hids hrepc hrepa hg
      obtain ⟨i, cs⟩ := c
      rw [RepT_node] at hrepc
      obtain ⟨hgi, hrepcs⟩ := hrepc
      rw [id_node] at hsubs hnodup
      rw [id_node]
      have himem : i ∈ (ITree.node i cs).ids := by
        rw [ids_node]; exact List.mem_cons_self ..
      have phase1 : ∃ k1, dfsTrace canEnter canExit store k1 .Down (⟨i⟩ :: p :: rest) =
          ((ITree.node i cs).leaves.map
              fun l => ((.ok (some (⟨l⟩ : StepId)) : Except SError (Option StepId)),
                some (⟨l⟩ : StepId)),
           .SiblingOrUp, ⟨i⟩ :: p :: rest) := by
        cases cs with
        | nil =>
            refine ⟨1, ?_⟩
            have hfc : DepthFirstSearch.first_child_of ⟨i⟩ store = none := by
              unfold DepthFirstSearch.first_child_of
              rw [hgi]
              simp [Step.first_substep, stepOfNode]
            have hstep : DepthFirstSearch.nextStep canEnter canExit store .Down
                (⟨i⟩ :: p :: rest) = .brk .SiblingOrUp (⟨i⟩ :: p :: rest) none := by
              simp [DepthFirstSearch.nextStep, DepthFirstSearch.go_down, hfc]
            rw [dfsTrace_succ, hstep]
            dsimp only
            rw [leaves_node_nil]
            simp [dfsTrace, DepthFirstSearch.obsOf]
        | cons d ds =>
            have hfc : DepthFirstSearch.first_child_of ⟨i⟩ store = some ⟨d.id⟩ := by
              unfold DepthFirstSearch.first_child_of
              rw [hgi]
              simp [Step.first_substep, stepOfNode]
            have hdin : d.id ∈ (ITree.node i (d :: ds)).ids := by
              rw [ids_node, forestIds_cons]
              exact List.mem_cons_of_mem _ (List.mem_append_left _ (id_mem_ids d))
            have hce : canEnter ⟨d.id⟩ = .ok () :=
              (hg d.id (List.mem_append_left _ hdin)).1
            have hstep : DepthFirstSearch.nextStep canEnter canExit store .Down
                (⟨i⟩ :: p :: rest) = .next .Down (⟨d.id⟩ :: ⟨i⟩ :: p :: rest) := by
              simp [DepthFirstSearch.nextStep, DepthFirstSearch.go_down, hfc, hce]
            have hsz : d.size + forestSize ds ≤ n := by
              have e1 : ITree.size (ITree.node i (d :: ds)) =
                  1 + forestSize (d :: ds) := by simp [ITree.size]
              have e2 := forestSize_cons d ds
              omega
            have hidcs : (forestIds (d :: ds)).Nodup := by
              rw [ids_node] at hids
              have := (List.nodup_append.mp hids).1
              exact (List.nodup_cons.mp this).2
            have hsubs2 : (stepOfNode i (d :: ds)).substep_step_ids =
                some ([] ++ ⟨d.id⟩ :: ds.map fun a => (⟨a.id⟩ : StepId)) := by
              simp [stepOfNode]
            have hnodup2 : (([] : List StepId) ++
                ⟨d.id⟩ :: ds.map fun a => (⟨a.id⟩ : StepId)).Nodup := by
              have := childIds_nodup hidcs
              simpa using this
            have hids2 : (d.ids ++ forestIds ds).Nodup := by
              rw [← forestIds_cons]
              exact hidcs
            have hrepd : RepT store d := (RepF_cons.mp hrepcs).1
            have hrepds : RepF store ds := (RepF_cons.mp hrepcs).2
            have hg2 : ∀ x ∈ d.ids ++ forestIds ds,
                canEnter ⟨x⟩ = .ok () ∧ canExit ⟨x⟩ = .ok () := by
              intro x hx
              refine hg x (List.mem_append_left _ ?_)
              rw [ids_node, forestIds_cons]
              exact List.mem_cons_of_mem _ hx
            obtain ⟨k1, hk1⟩ := ih d ds hsz ⟨i⟩ (p :: rest) [] (stepOfNode i (d :: ds))
              hgi hsubs2 hnodup2 hids2 hrepd hrepds hg2
            refine ⟨1 + k1, ?_⟩
            rw [dfsTrace_add canEnter canExit store 1 k1]
            have h1 : dfsTrace canEnter canExit store 1 .Down (⟨i⟩ :: p :: rest) =
                ([], .Down, ⟨d.id⟩ :: ⟨i⟩ :: p :: rest) := by
              rw [dfsTrace_succ, hstep]
              rfl
            rw [h1]
            dsimp only
            rw [hk1, leaves_node_cons, forestLeaves_cons]
            simp
      obtain ⟨k1, hph1⟩ := phase1
      have hcx : canExit ⟨i⟩ = .ok () := (hg i (List.mem_append_left _ himem)).2
      have hinotpre : (⟨i⟩ : StepId) ∉ pre := fun hmem =>
        (List.nodup_append.mp hnodup).2.2 hmem (List.mem_cons_self ..)
      have hns : DepthFirstSearch.next_sibling_of_current (⟨i⟩ :: p :: rest) store =
          (after.map fun a => (⟨a.id⟩ : StepId)).head? := by
        show ((store.get p).bind fun parent_step =>
          parent_step.next_substep ⟨i⟩) = _
        rw [hp]
        show pstep.next_substep ⟨i⟩ = _
        unfold Step.next_substep
        rw [hsubs]
        exact nextAfter_append_cons ⟨i⟩ pre _ hinotpre
      cases after with
      | nil =>
          have hstepA : DepthFirstSearch.nextStep canEnter canExit store .SiblingOrUp
              (⟨i⟩ :: p :: rest) = .next .SiblingOrUp (p :: rest) := by
            simp only [List.map_nil, List.head?_nil] at hns
            simp [DepthFirstSearch.nextStep, DepthFirstSearch.go_sibling_or_up,
              hcx, hns]
          refine ⟨k1 + 1, ?_⟩
          rw [dfsTrace_add canEnter canExit store k1 1, hph1]
          dsimp only
          rw [dfsTrace_succ, hstepA]
          dsimp only
          rw [forestLeaves_nil]
          simp [dfsTrace]
      | cons a after' =>
          have hamem : a.id ∈ forestIds (a :: after') := by
            rw [forestIds_cons]
            exact List.mem_append_left _ (id_mem_ids a)
          have hcea : canEnter ⟨a.id⟩ = .ok () :=
            (hg a.id (List.mem_append_right _ hamem)).1
          have hstepA : DepthFirstSearch.nextStep canEnter canExit store .SiblingOrUp
              (⟨i⟩ :: p :: rest) = .next .Down (⟨a.id⟩ :: p :: rest) := by
            simp only [List.map_cons, List.head?_cons] at hns
            simp [DepthFirstSearch.nextStep, DepthFirstSearch.go_sibling_or_up,
              hcx, hns, hcea]
          have hsz2 : a.size + forestSize after' ≤ n := by
            have e1 := size_pos (ITree.node i cs)
            have e2 := forestSize_cons a after'
            omega
          have hsubs3 : pstep.substep_step_ids =
              some ((pre ++ [⟨i⟩]) ++ ⟨a.id⟩ :: after'.map fun b => (⟨b.id⟩ : StepId)) := by
            rw [hsubs]
            simp
          have hnodup3 : ((pre ++ [(⟨i⟩ : StepId)]) ++
              (⟨a.id⟩ : StepId) :: after'.map fun b => (⟨b.id⟩ : StepId)).Nodup := by
            simpa using hnodup
          have hids3 : (a.ids ++ forestIds after').Nodup := by
            rw [← forestIds_cons]
            exact (List.nodup_append.mp hids).2.1
          have hrepa1 : RepT store a := (RepF_cons.mp hrepa).1
          have hrepa2 : RepF store after' := (RepF_cons.mp hrepa).2
          have hg3 : ∀ x ∈ a.ids ++ forestIds after',
              canEnter ⟨x⟩ = .ok () ∧ canExit ⟨x⟩ = .ok () := by
            intro x hx
            refine hg x (List.mem_append_right _ ?_)
            rw [forestIds_cons, ← forestIds_cons]
            exact hx
          obtain ⟨k2, hk2⟩ := ih a after' hsz2 p rest (pre ++ [⟨i⟩]) pstep hp
            hsubs3 hnodup3 hids3 hrepa1 hrepa2 hg3
          refine ⟨k1 + (1 + k2), ?_⟩
          rw [dfsTrace_add canEnter canExit store k1 (1 + k2), hph1]
          dsimp only
          rw [dfsTrace_add canEnter canExit store 1 k2]
          have h1 : dfsTrace canEnter canExit store 1 .SiblingOrUp (⟨i⟩ :: p :: rest) =
              ([], .Down, ⟨a.id⟩ :: p :: rest) := by
            rw [dfsTrace_succ, hstepA]
            rfl
          rw [h1]
          dsimp only
          rw [hk2, forestLeaves_cons]
          simp

/-- Started fresh on the synthetic root, the cursor loop emits exactly the
pre-order leaves of the whole tree (each error-free and on top of the
stack), then the exhaustion observation, ending `Done` on an empty stack. -/
theorem dfs_root_trace (canEnter canExit : StepId → Except SError Unit)
    (store : ObjectStore Step StepId) (ts : List ITree)
    (hids : (ITree.node 1 ts).ids.Nodup)
    (hrep : RepT store (ITree.node 1 ts))
    (hg : ∀ x ∈ (ITree.node 1 ts).ids,
      canEnter ⟨x⟩ = .ok () ∧ canExit ⟨x⟩ = .ok ()) :
    ∃ k, dfsTrace canEnter canExit store k .Down [⟨1⟩] =
      ((ITree.node 1 ts).leaves.map
          (fun l => (.ok (some (⟨l⟩ : StepId)), some (⟨l⟩ : StepId))) ++
        [(.ok none, none)],
       .Done, []) := by
  rw [RepT_node] at hrep
  obtain ⟨hg1, hrepf⟩ := hrep
  have h1mem : 1 ∈ (ITree.node 1 ts).ids := by
    rw [ids_node]; exact List.mem_cons_self ..
  have hcx1 : canExit ⟨1⟩ = .ok () := (hg 1 h1mem).2
  have hstep3 : DepthFirstSearch.nextStep canEnter canExit store .SiblingOrUp
      ([] : List StepId) = .brk .Done [] none := rfl
  have t1 : dfsTrace canEnter canExit store 1 .SiblingOrUp ([] : List StepId) =
      ([((.ok none : Except SError (Option StepId)), (none : Option StepId))],
        .Done, []) := by
    rw [dfsTrace_succ, hstep3]
    simp [dfsTrace, DepthFirstSearch.obsOf]
  have hns1 : DepthFirstSearch.next_sibling_of_current [(⟨1⟩ : StepId)] store =
      none := rfl
  have hstep2 : DepthFirstSearch.nextStep canEnter canExit store .SiblingOrUp
      [(⟨1⟩ : StepId)] = .next .SiblingOrUp [] := by
    simp [DepthFirstSearch.nextStep, DepthFirstSearch.go_sibling_or_up, hcx1, hns1]
  have t2 : dfsTrace canEnter canExit store 2 .SiblingOrUp [(⟨1⟩ : StepId)] =
      ([((.ok none : Except SError (Option StepId)), (none : Option StepId))],
        .Done, []) := by
    rw [dfsTrace_succ, hstep2]
    dsimp only
    exact t1
  cases ts with
  | nil =>
      refine ⟨3, ?_⟩
      have hfc : DepthFirstSearch.first_child_of ⟨1⟩ store = none := by
        unfold DepthFirstSearch.first_child_of
        rw [hg1]
        simp [Step.first_substep, stepOfNode]
      have hstep1 : DepthFirstSearch.nextStep canEnter canExit store .Down
          [(⟨1⟩ : StepId)] = .brk .SiblingOrUp [⟨1⟩] none := by
        simp [DepthFirstSearch.nextStep, DepthFirstSearch.go_down, hfc]
      rw [dfsTrace_succ, hstep1]
      dsimp only
      rw [t2, leaves_node_nil]
      simp [DepthFirstSearch.obsOf]
  | cons t ts' =>
      have hfc : DepthFirstSearch.first_child_of ⟨1⟩ store = some ⟨t.id⟩ := by
        unfold DepthFirstSearch.first_child_of
        rw [hg1]
        simp [Step.first_substep, stepOfNode]
      have htmem : t.id ∈ (ITree.node 1 (t :: ts')).ids := by
        rw [ids_node, forestIds_cons]
        exact List.mem_cons_of_mem _ (List.mem_append_left _ (id_mem_ids t))
      have hce : canEnter ⟨t.id⟩ = .ok () := (hg t.id htmem).1
      have hstep1 : DepthFirstSearch.nextStep canEnter canExit store .Down
          [(⟨1⟩ : StepId)] = .next .Down [⟨t.id⟩, ⟨1⟩] := by
        simp [DepthFirstSearch.nextStep, DepthFirstSearch.go_down, hfc, hce]
      have hidf : (forestIds (t :: ts')).Nodup := by
        rw [ids_node] at hids
        exact (List.nodup_cons.mp hids).2
      have hsubs : (stepOfNode 1 (t :: ts')).substep_step_ids =
          some ([] ++ ⟨t.id⟩ :: ts'.map fun a => (⟨a.id⟩ : StepId)) := by
        simp [stepOfNode]
      have hnodup : (([] : List StepId) ++
          ⟨t.id⟩ :: ts'.map fun a => (⟨a.id⟩ : StepId)).Nodup := by
        have := childIds_nodup hidf
        simpa using this
      have hids2 : (t.ids ++ forestIds ts').Nodup := by
        rw [← forestIds_cons]
        exact hidf
      have hg2 : ∀ x ∈ t.ids ++ forestIds ts',
          canEnter ⟨x⟩ = .ok () ∧ canExit ⟨x⟩ = .ok () := by
        intro x hx
        refine hg x ?_
        rw [ids_node, forestIds_cons]
        exact List.mem_cons_of_mem _ hx
      obtain ⟨k1, hk1⟩ := dfs_forest_trace canEnter canExit store
        (t.size + forestSize ts') t ts' le_rfl ⟨1⟩ [] [] (stepOfNode 1 (t :: ts'))
        hg1 hsubs hnodup hids2 (RepF_cons.mp hrepf).1 (RepF_cons.mp hrepf).2 hg2
      refine ⟨1 + (k1 + 2), ?_⟩
      rw [dfsTrace_add canEnter canExit store 1 (k1 + 2)]
      have h1 : dfsTrace canEnter canExit store 1 .Down [(⟨1⟩ : StepId)] =
          ([], .Down, [⟨t.id⟩, ⟨1⟩]) := by
        rw [dfsTrace_succ, hstep1]
        rfl
      rw [h1]
      dsimp only
      rw [dfsTrace_add canEnter canExit store k1 2, hk1]
      dsimp only
      rw [t2, leaves_node_cons, forestLeaves_cons]
      simp

/-- Over a store representing a tree, both session gates accept every node,
whatever the current state data. -/
theorem gates_ok_of_rep {store : ObjectStore Step StepId} {sd : StateData}
    {t : ITree} (hrep : RepT store t) :
    ∀ x ∈ t.ids, Session.enterGate store sd ⟨x⟩ = .ok () ∧
      Session.exitGate store sd ⟨x⟩ = .ok () := by
  intro x hx
  obtain ⟨cs, hget⟩ := (rep_get_stepOfNode store).1 t hrep x hx
  exact gates_ok_of_stepOfNode hget

/-! ## C4 — computing the harness session -/

theorem insertKV_cons {K V : Type} [DecidableEq K] (k0 : K) (v0 : V)
    (rest : List (K × V)) (k : K) (v : V) :
    insertKV ((k0, v0) :: rest) k v =
      if k0 = k then (k, v) :: rest else (k0, v0) :: insertKV rest k v := rfl

theorem foldl_push_substep_some (ids : List StepId) :
    ∀ (i : StepId) (iv : Option (List VarId)) (ov : List VarId) (l : List StepId),
    ids.foldl Step.push_substep
        { id := i, input_vars := iv, output_vars := ov,
          substep_step_ids := some l } =
      { id := i, input_vars := iv, output_vars := ov,
        substep_step_ids := some (l ++ ids) } := by
  induction ids with
  | nil => intro i iv ov l; simp
  | cons x ids' ih =>
      intro i iv ov l
      rw [List.foldl_cons]
      have h1 : Step.push_substep
          { id := i, input_vars := iv, output_vars := ov,
            substep_step_ids := some l } x =
          { id := i, input_vars := iv, output_vars := ov,
            substep_step_ids := some (l ++ [x]) } := by
        simp [Step.push_substep]
      rw [h1, ih]
      simp

/-- Folding `push_substep` over a fresh step records exactly the pushed list
(`none` when nothing was pushed). -/
theorem foldl_push_substep_new (ids : List StepId) (i : StepId)
    (iv : Option (List VarId)) (ov : List VarId) :
    ids.foldl Step.push_substep (Step.new i iv ov) =
      { id := i, input_vars := iv, output_vars := ov,
        substep_step_ids := if ids.isEmpty then none else some ids } := by
  cases ids with
  | nil => simp [Step.new]
  | cons x ids' =>
      rw [List.foldl_cons]
      have h1 : Step.push_substep (Step.new i iv ov) x =
          { id := i, input_vars := iv, output_vars := ov,
            substep_step_ids := some [x] } := by
        simp [Step.push_substep, Step.new]
      rw [h1, foldl_push_substep_some ids' i iv ov [x]]
      simp

/-- Folding `push_root_substep` over a session whose root sits second in the
step store pushes every identity onto that root step, in order. -/
theorem foldl_push_root (ids : List StepId) :
    ∀ (sess : Session) (a r : Step) (rest : List (StepId × Step)),
    sess.step_id_root = ⟨1⟩ →
    sess.step_store.id_to_object = (⟨0⟩, a) :: (⟨1⟩, r) :: rest →
    ids.foldl (fun s t => s.push_root_substep t) sess =
      { sess with step_store :=
          { sess.step_store with
            id_to_object :=
              (⟨0⟩, a) :: (⟨1⟩, ids.foldl Step.push_substep r) :: rest } } := by
  induction ids with
  | nil =>
      intro sess a r rest hroot hobj
      rw [List.foldl_nil, List.foldl_nil, ← hobj]
  | cons x ids' ih =>
      intro sess a r rest hroot hobj
      rw [List.foldl_cons, List.foldl_cons]
      have hget : sess.step_store.get ⟨1⟩ = some r := by
        unfold ObjectStore.get
        rw [hobj, lookupKV_cons, if_neg (by simp), lookupKV_cons, if_pos rfl]
      have hpush : sess.push_root_substep x =
          { sess with step_store :=
              { sess.step_store with
                id_to_object := (⟨0⟩, a) :: (⟨1⟩, r.push_substep x) :: rest } } := by
        unfold Session.push_root_substep
        rw [hroot, hget]
        dsimp only
        rw [hobj, insertKV_cons, if_neg (by simp), insertKV_cons, if_pos rfl]
      rw [hpush]
      rw [ih _ a (r.push_substep x) rest (by simp [hroot]) rfl]

/-- The harness session, computed: the fresh session's two synthetic steps,
the forest's entries, the root step with the forest's roots as substeps, the
blocking action, and the generic-action registration. -/
theorem sessionOfForest_eq (ts : List ITree) :
    sessionOfForest ts =
      { id := ⟨0⟩, state_data := StateData.new,
        actions := [(⟨0⟩, ⟨0⟩)],
        step_store :=
          { id_to_object :=
              (⟨0⟩, Step.new ⟨0⟩ none []) ::
                (⟨1⟩, stepOfNode 1 ts) :: forestEntries ts,
            name_to_id :=
              [("STEP_ID_ACTION_ALL", ⟨0⟩), ("SESSION_ROOT", ⟨1⟩)],
            next_id := 2 },
        action_store :=
          { id_to_object := [(⟨0⟩, blockAction ⟨0⟩)], name_to_id := [],
            next_id := 1 },
        var_store := ObjectStore.with_capacity 0,
        step_id_all := ⟨0⟩, step_id_root := ⟨1⟩,
        step_id_dfs := ⟨[⟨1⟩], .Down⟩ } := by
  cases ts with
  | nil => rfl
  | cons t ts' =>
      unfold sessionOfForest
      rw [← List.foldl_map (fun x => (⟨x.id⟩ : StepId))
        (fun (s : Session) x => s.push_root_substep x) (t :: ts')]
      rw [foldl_push_root ((t :: ts').map fun x => (⟨x.id⟩ : StepId)) _
        (Step.new ⟨0⟩ none []) (Step.new ⟨1⟩ none [])
        (forestEntries (t :: ts')) rfl rfl]
      rw [foldl_push_substep_new]
      rfl

/-- `call_action` on the blocking action: the result is `StartWith(true)` and
the session is returned unchanged (the action's state write is the identity
on the store). -/
theorem call_action_block (sess2 : Session) (t : StepId) (tstep : Step)
    (hstore : sess2.action_store.id_to_object = [(⟨0⟩, blockAction ⟨0⟩)])
    (hdget : sess2.step_store.get t = some tstep) :
    Session.call_action sess2 ⟨0⟩ t = (sess2, .ok (.startWith (.boolV true))) := by
  have hact : sess2.action_store.get ⟨0⟩ = some (blockAction ⟨0⟩) := by
    unfold ObjectStore.get
    rw [hstore]
    rfl
  unfold Session.call_action
  rw [hdget, hact]
  have hrunapp : ∀ (nm : Option String) (sd : StateData) (fi : List VarId),
      (blockAction ⟨0⟩).run (blockAction ⟨0⟩).st tstep nm sd fi =
        ((.ok (.startWith (.boolV true)) : Except ActionError ActionResult),
          (blockAction ⟨0⟩).st) := fun _ _ _ => rfl
  dsimp only
  simp only [hrunapp]
  rw [hstore]
  have hins : insertKV [((⟨0⟩ : ActionId), blockAction ⟨0⟩)] ⟨0⟩
      { id := (blockAction ⟨0⟩).id, st := (blockAction ⟨0⟩).st,
        run := (blockAction ⟨0⟩).run } =
      [((⟨0⟩ : ActionId), blockAction ⟨0⟩)] := rfl
  rw [hins, ← hstore]

/-- One `advance(None)` call on a session whose only registered action is
the blocking generic action `0`: when the cursor call succeeds with a step
`t ≠ 0` present in the step store, the call reports the blocking action and
only the cursor moves. -/
theorem advance_blocked_call (sess : Session) (F : Nat)
    (d d' : DFSDirection) (s s' : List StepId) (t : StepId) (tstep : Step)
    (hdfs : sess.step_id_dfs = ⟨s, d⟩)
    (hacts : sess.actions = [(⟨0⟩, ⟨0⟩)])
    (hall : sess.step_id_all = ⟨0⟩)
    (hstore : sess.action_store.id_to_object = [(⟨0⟩, blockAction ⟨0⟩)])
    (hloop : DepthFirstSearch.nextLoop
        (Session.enterGate sess.step_store sess.state_data)
        (Session.exitGate sess.step_store sess.state_data) sess.step_store F d s =
      some (d', s', none))
    (hd' : d' ≠ .Done) (hhd : s'.head? = some t)
    (hdget : sess.step_store.get t = some tstep)
    (ht : t ≠ (⟨0⟩ : StepId))
    (hF : 5 ≤ F) :
    Session.advance F sess none =
      some (.ok (.actionStartWith ⟨0⟩ (.boolV true)),
        { sess with step_id_dfs := ⟨s', d'⟩ }) := by
  have hnext : sess.step_id_dfs.next F
      (Session.enterGate sess.step_store sess.state_data)
      (Session.exitGate sess.step_store sess.state_data) sess.step_store =
      some (⟨s', d'⟩, .ok (some t)) := by
    unfold DepthFirstSearch.next
    rw [hdfs]
    dsimp only
    rw [hloop]
    dsimp only [Option.map]
    unfold DepthFirstSearch.obsOf
    dsimp only
    rw [if_neg hd', hhd]
  have htry : Session.try_enter_next_step F sess none =
      some ({ sess with step_id_dfs := ⟨s', d'⟩ }, .ok (some t)) := by
    unfold Session.try_enter_next_step Session.try_enter_checked
      Session.try_enter_go
    dsimp only
    rw [hnext]
  have hl1 : lookupKV ({ sess with step_id_dfs := ⟨s', d'⟩ } : Session).actions t =
      none := by
    show lookupKV sess.actions t = none
    rw [hacts, lookupKV_cons, if_neg (fun h => ht h.symm)]
    rfl
  have hl2 : lookupKV ({ sess with step_id_dfs := ⟨s', d'⟩ } : Session).actions
      ({ sess with step_id_dfs := ⟨s', d'⟩ } : Session).step_id_all =
      some ⟨0⟩ := by
    show lookupKV sess.actions sess.step_id_all = some ⟨0⟩
    rw [hacts, hall, lookupKV_cons, if_pos rfl]
  have hca : Session.call_action { sess with step_id_dfs := ⟨s', d'⟩ } ⟨0⟩ t =
      ({ sess with step_id_dfs := ⟨s', d'⟩ }, .ok (.startWith (.boolV true))) :=
    call_action_block _ t tstep hstore hdget
  obtain ⟨m, rfl⟩ : ∃ m, F = m + 5 := ⟨F - 5, by omega⟩
  unfold Session.advance
  rw [show m + 5 = m + 4 + 1 from rfl, advanceAux_advanceStep, htry]
  dsimp only
  rw [show m + 4 = m + 3 + 1 from rfl, advanceAux_getSpecific, hl1]
  dsimp only
  rw [show m + 3 = m + 2 + 1 from rfl, advanceAux_getGeneric, hl2]
  dsimp only
  rw [show m + 2 = m + 1 + 1 from rfl, advanceAux_startGeneric, hca]
  dsimp only
  rw [advanceAux_done]
  rfl

/-- One `advance(None)` call whose cursor call reports exhaustion: the call
reports "finished advancing" and only the cursor moves. -/
theorem advance_finished_call (sess : Session) (F : Nat)
    (d : DFSDirection) (s s' : List StepId)
    (hdfs : sess.step_id_dfs = ⟨s, d⟩)
    (hloop : DepthFirstSearch.nextLoop
        (Session.enterGate sess.step_store sess.state_data)
        (Session.exitGate sess.step_store sess.state_data) sess.step_store F d s =
      some (.Done, s', none))
    (hF : 2 ≤ F) :
    Session.advance F sess none =
      some (.ok .finishedAdvancing, { sess with step_id_dfs := ⟨s', .Done⟩ }) := by
  have hnext : sess.step_id_dfs.next F
      (Session.enterGate sess.step_store sess.state_data)
      (Session.exitGate sess.step_store sess.state_data) sess.step_store =
      some (⟨s', .Done⟩, .ok none) := by
    unfold DepthFirstSearch.next
    rw [hdfs]
    dsimp only
    rw [hloop]
    dsimp only [Option.map]
    unfold DepthFirstSearch.obsOf
    dsimp only
    rw [if_pos rfl]
  have htry : Session.try_enter_next_step F sess none =
      some ({ sess with step_id_dfs := ⟨s', .Done⟩ }, .ok none) := by
    unfold Session.try_enter_next_step Session.try_enter_checked
      Session.try_enter_go
    dsimp only
    rw [hnext]
  obtain ⟨m, rfl⟩ : ∃ m, F = m + 2 := ⟨F - 2, by omega⟩
  unfold Session.advance
  rw [show m + 2 = m + 1 + 1 from rfl, advanceAux_advanceStep, htry]
  dsimp only
  rw [advanceAux_done]
  rfl

theorem runAdvance_succ (fuel n : Nat) (sess : Session) :
    runAdvance fuel (n + 1) sess =
      (match Session.advance fuel sess none with
       | none => none
       | some (r, sess') =>
           (runAdvance fuel n sess').map
             fun l => (r, sess'.step_id_dfs.current) :: l) := rfl

theorem obsOf_ok_some {d1 : DFSDirection} {s1 : List StepId} {err : Option SError}
    {t : StepId} (h : DepthFirstSearch.obsOf d1 s1 err = .ok (some t)) :
    err = none ∧ d1 ≠ .Done ∧ s1.head? = some t := by
  unfold DepthFirstSearch.obsOf at h
  cases err with
  | some e => simp at h
  | none =>
      by_cases hd : d1 = .Done
      · rw [if_pos hd] at h; simp at h
      · rw [if_neg hd] at h
        cases hs : s1.head? with
        | some x =>
            rw [hs] at h
            simp at h
            exact ⟨rfl, hd, congrArg some h⟩
        | none => rw [hs] at h; simp at h

theorem obsOf_ok_none {d1 : DFSDirection} {s1 : List StepId} {err : Option SError}
    (h : DepthFirstSearch.obsOf d1 s1 err = .ok none) :
    err = none ∧ d1 = .Done := by
  unfold DepthFirstSearch.obsOf at h
  cases err with
  | some e => simp at h
  | none =>
      by_cases hd : d1 = .Done
      · exact ⟨rfl, hd⟩
      · rw [if_neg hd] at h
        cases hs : s1.head? with
        | some x => rw [hs] at h; simp at h
        | none => rw [hs] at h; simp at h

/-- The session run follows the cursor-call observations one for one: every
successful cursor observation of a step becomes a blocked advance reporting
the blocking action with that step current, and the exhaustion observation
becomes "finished advancing". -/
theorem runAdvance_of_nextCalls :
    ∀ (n : Nat) (sess : Session) (F : Nat) (d : DFSDirection) (s : List StepId)
      (obs : List (Except SError (Option StepId) × Option StepId)),
    sess.step_id_dfs = ⟨s, d⟩ →
    sess.actions = [(⟨0⟩, ⟨0⟩)] →
    sess.step_id_all = ⟨0⟩ →
    sess.action_store.id_to_object = [(⟨0⟩, blockAction ⟨0⟩)] →
    nextCalls (Session.enterGate sess.step_store sess.state_data)
      (Session.exitGate sess.step_store sess.state_data) sess.step_store F n d s =
      some obs →
    (∀ pr ∈ obs,
      (∃ t, pr.1 = .ok (some t) ∧ t ≠ (⟨0⟩ : StepId) ∧
        (sess.step_store.get t).isSome = true) ∨ pr.1 = .ok none) →
    5 ≤ F →
    runAdvance F n sess = some (obs.map advObs) := by
  intro n
  induction n with
  | zero =>
      intro sess F d s obs hdfs hacts hall hstore hcalls hgood hF
      unfold nextCalls at hcalls
      injection hcalls with h
      subst h
      rfl
  | succ m ih =>
      intro sess F d s obs hdfs hacts hall hstore hcalls hgood hF
      unfold nextCalls at hcalls
      cases hloop : DepthFirstSearch.nextLoop
          (Session.enterGate sess.step_store sess.state_data)
          (Session.exitGate sess.step_store sess.state_data) sess.step_store
          F d s with
      | none => rw [hloop] at hcalls; simp at hcalls
      | some out =>
          obtain ⟨d1, s1, err⟩ := out
          rw [hloop] at hcalls
          dsimp only at hcalls
          cases hrest : nextCalls
              (Session.enterGate sess.step_store sess.state_data)
              (Session.exitGate sess.step_store sess.state_data) sess.step_store
              F m d1 s1 with
          | none => rw [hrest] at hcalls; simp at hcalls
          | some obs' =>
              rw [hrest] at hcalls
              dsimp only [Option.map] at hcalls
              injection hcalls with hcalls
              subst hcalls
              have hhead := hgood (DepthFirstSearch.obsOf d1 s1 err, s1.head?)
                (List.mem_cons_self ..)
              have htail : ∀ pr ∈ obs',
                  (∃ t, pr.1 = .ok (some t) ∧ t ≠ (⟨0⟩ : StepId) ∧
                    (sess.step_store.get t).isSome = true) ∨ pr.1 = .ok none :=
                fun pr hpr => hgood pr (List.mem_cons_of_mem _ hpr)
              rcases hhead with ⟨t, hok, ht0, hsome⟩ | hnone
              · obtain ⟨herr, hd1, hhd1⟩ := obsOf_ok_some hok
                subst herr
                obtain ⟨tstep, htstep⟩ := Option.isSome_iff_exists.mp hsome
                have hadv := advance_blocked_call sess F d d1 s s1 t tstep hdfs
                  hacts hall hstore hloop hd1 hhd1 htstep ht0 hF
                rw [runAdvance_succ, hadv]
                dsimp only
                have hih := ih { sess with step_id_dfs := ⟨s1, d1⟩ } F d1 s1 obs'
                  rfl hacts hall hstore hrest htail hF
                rw [hih]
                have hok' : DepthFirstSearch.obsOf d1 s1 none = .ok (some t) := hok
                rw [hok']
                rfl
              · obtain ⟨herr, hd1⟩ := obsOf_ok_none hnone
                subst herr
                subst hd1
                have hadv := advance_finished_call sess F d s s1 hdfs hloop
                  (by omega)
                rw [runAdvance_succ, hadv]
                dsimp only
                have hih := ih { sess with step_id_dfs := ⟨s1, .Done⟩ } F .Done s1
                  obs' rfl hacts hall hstore hrest htail hF
                rw [hih]
                have hnone' : DepthFirstSearch.obsOf .Done s1 none = .ok none := hnone
                rw [hnone']
                rfl

/-- C4: for every step tree in which no step declares required inputs or
outputs (built here as a forest of substeps under the synthetic session
root, with a blocking generic action so each blocked step is observable),
repeatedly calling `advance(None)` reports each childless (leaf) step
exactly once as the current step, in pre-order depth-first order of the
tree, and then reaches the "finished advancing" terminal result: with
enough fuel, the run of `number of leaves + 1` advance calls observes
exactly the pre-order leaf list — every call returning `Ok(ActionStartWith)`
with that leaf as the current step — followed by one
`Ok(FinishedAdvancing)`. -/
theorem advance_visits_leaves_in_preorder (ts : List ITree)
    (hnodup : (ITree.node 1 ts).ids.Nodup)
    (h0 : 0 ∉ (ITree.node 1 ts).ids) :
    ∃ F, runAdvance F ((ITree.node 1 ts).leaves.length + 1) (sessionOfForest ts) =
      some (((ITree.node 1 ts).leaves.map fun l =>
          (.ok (.actionStartWith ⟨0⟩ (.boolV true)), some (⟨l⟩ : StepId))) ++
        [(.ok .finishedAdvancing, none)]) := by
  rw [sessionOfForest_eq]
  obtain ⟨S0, hS0⟩ : ∃ S0 : ObjectStore Step StepId,
      S0 =
        { id_to_object :=
            (⟨0⟩, Step.new ⟨0⟩ none []) ::
              (⟨1⟩, stepOfNode 1 ts) :: forestEntries ts,
          name_to_id := [("STEP_ID_ACTION_ALL", ⟨0⟩), ("SESSION_ROOT", ⟨1⟩)],
          next_id := 2 } := ⟨_, rfl⟩
  rw [← hS0]
  have hrep : RepT S0 (ITree.node 1 ts) := by
    rw [hS0]
    have hpre : ∀ x ∈ (ITree.node 1 ts).ids,
        (⟨x⟩ : StepId) ∉ ([(⟨0⟩, Step.new ⟨0⟩ none [])] :
          List (StepId × Step)).map Prod.fst := by
      intro x hx
      simp only [List.map_cons, List.map_nil, List.mem_singleton]
      intro hmk
      have hx0 : x = 0 := congrArg StepId.val hmk
      rw [hx0] at hx
      exact h0 hx
    have h := (rep_of_entries
        [("STEP_ID_ACTION_ALL", ⟨0⟩), ("SESSION_ROOT", ⟨1⟩)] 2).1
      (ITree.node 1 ts) [(⟨0⟩, Step.new ⟨0⟩ none [])] [] hpre hnodup
    rw [toEntries_node] at h
    simpa using h
  obtain ⟨k, htr⟩ := dfs_root_trace
    (Session.enterGate S0 StateData.new) (Session.exitGate S0 StateData.new)
    S0 ts hnodup hrep (gates_ok_of_rep hrep)
  refine ⟨k + 5, ?_⟩
  have hobs_len : (((ITree.node 1 ts).leaves.map
      fun l => ((.ok (some (⟨l⟩ : StepId)) : Except SError (Option StepId)),
        some (⟨l⟩ : StepId))) ++
      [((.ok none : Except SError (Option StepId)), (none : Option StepId))]).length =
      (ITree.node 1 ts).leaves.length + 1 := by simp
  have hcalls := nextCalls_of_trace htr (by omega : k ≤ k + 5)
    (le_of_eq hobs_len.symm)
  have htake : (((ITree.node 1 ts).leaves.map
      fun l => ((.ok (some (⟨l⟩ : StepId)) : Except SError (Option StepId)),
        some (⟨l⟩ : StepId))) ++
      [((.ok none : Except SError (Option StepId)), (none : Option StepId))]).take
        ((ITree.node 1 ts).leaves.length + 1) =
      ((ITree.node 1 ts).leaves.map
        fun l => ((.ok (some (⟨l⟩ : StepId)) : Except SError (Option StepId)),
          some (⟨l⟩ : StepId))) ++
      [((.ok none : Except SError (Option StepId)), (none : Option StepId))] := by
    rw [← hobs_len]
    exact List.take_length _
  rw [htake] at hcalls
  have hgood : ∀ pr ∈ (((ITree.node 1 ts).leaves.map
      fun l => ((.ok (some (⟨l⟩ : StepId)) : Except SError (Option StepId)),
        some (⟨l⟩ : StepId))) ++
      [((.ok none : Except SError (Option StepId)), (none : Option StepId))]),
      (∃ t, pr.1 = .ok (some t) ∧ t ≠ (⟨0⟩ : StepId) ∧
        (S0.get t).isSome = true) ∨ pr.1 = .ok none := by
    intro pr hpr
    rcases List.mem_append.mp hpr with h | h
    · obtain ⟨l, hl, rfl⟩ := List.mem_map.mp h
      refine .inl ⟨⟨l⟩, rfl, ?_, ?_⟩
      · intro hmk
        have hl0 : l = 0 := congrArg StepId.val hmk
        rw [hl0] at hl
        exact h0 (leaves_mem_ids.1 _ 0 hl)
      · obtain ⟨cs, hget⟩ := (rep_get_stepOfNode S0).1 _ hrep l
          (leaves_mem_ids.1 _ l hl)
        rw [hget]
        rfl
    · rw [List.mem_singleton] at h
      rw [h]
      exact .inr rfl
  have hrun := runAdvance_of_nextCalls ((ITree.node 1 ts).leaves.length + 1)
    { id := ⟨0⟩, state_data := StateData.new,
      actions := [(⟨0⟩, ⟨0⟩)],
      step_store := S0,
      action_store :=
        { id_to_object := [(⟨0⟩, blockAction ⟨0⟩)], name_to_id := [],
          next_id := 1 },
      var_store := ObjectStore.with_capacity 0,
      step_id_all := ⟨0⟩, step_id_root := ⟨1⟩,
      step_id_dfs := ⟨[⟨1⟩], .Down⟩ }
    (k + 5) .Down [⟨1⟩] _ rfl rfl rfl rfl hcalls hgood (by omega)
  rw [hrun]
  simp [advObs]

/-- Witness for C4 at a concrete three-leaf forest (root 1 with children
2 and 5, node 2 with leaf children 3 and 4): the identity conditions hold
and the theorem yields the run observing leaves 3, 4, 5 then finishing. -/
theorem advance_visits_leaves_in_preorder_witness :
    (ITree.node 1 [ITree.node 2 [ITree.node 3 [], ITree.node 4 []],
        ITree.node 5 []]).ids.Nodup ∧
    0 ∉ (ITree.node 1 [ITree.node 2 [ITree.node 3 [], ITree.node 4 []],
        ITree.node 5 []]).ids ∧
    ∃ F, runAdvance F
        ((ITree.node 1 [ITree.node 2 [ITree.node 3 [], ITree.node 4 []],
            ITree.node 5 []]).leaves.length + 1)
        (sessionOfForest [ITree.node 2 [ITree.node 3 [], ITree.node 4 []],
          ITree.node 5 []]) =
      some (((ITree.node 1 [ITree.node 2 [ITree.node 3 [], ITree.node 4 []],
            ITree.node 5 []]).leaves.map fun l =>
          (.ok (.actionStartWith ⟨0⟩ (.boolV true)), some (⟨l⟩ : StepId))) ++
        [(.ok .finishedAdvancing, none)]) := by
  have h1 : (ITree.node 1 [ITree.node 2 [ITree.node 3 [], ITree.node 4 []],
      ITree.node 5 []]).ids.Nodup := by
    simp [ITree.ids, forestIds]
  have h2 : 0 ∉ (ITree.node 1 [ITree.node 2 [ITree.node 3 [], ITree.node 4 []],
      ITree.node 5 []]).ids := by
    simp [ITree.ids, forestIds]
  exact ⟨h1, h2, advance_visits_leaves_in_preorder _ h1 h2⟩

end StepFlow
